import Mathlib

/-!
Shallow embedding of the webtv speaker-identification pipeline
(`src/lib/speaker-identification.ts`), its persistence/lock layer
(`src/lib/turso.ts`, shipped unnamed) and the pipeline driver
(`src/lib/speakers.ts`), together with theorems checking the
natural-language specification against this embedding.

Modelling conventions:
* JavaScript strings are Lean `String`s; the pipeline only ever compares
  normalized ASCII-alphanumeric text, where JS UTF-16 `length` and Lean's
  character count coincide.
* Millisecond timestamps (AssemblyAI word offsets, ISO-8601 lock stamps)
  are `Int`; fixed-format ISO-8601 strings compare lexicographically
  exactly as their numeric instants do, so the store's string comparison
  is embedded as integer comparison.
* A JavaScript object with numeric keys (the speaker mappings) is an
  association list with keys kept in ascending order, which is the
  enumeration order JavaScript guarantees for integer-like keys.  A key
  that is present but holds `undefined` is stored as `none`; reading a
  missing key and reading an `undefined` value are both `none`.
* Completion-service network calls are oracles passed in as arguments:
  the embedding covers everything the code does with a response once it
  has it.  A thrown exception is `Option.none` at the stage level.
-/

namespace WebTV

/-! ### String helpers (JS `String.prototype` operations used by the code) -/

/-- Character-list test: `pat` occurs at the start of `s`. -/
def charsStartWith : List Char → List Char → Bool
  | [], _ => true
  | _ :: _, [] => false
  | a :: as, b :: bs => a == b && charsStartWith as bs

/-- Character-list test: `pat` occurs somewhere inside `s`. -/
def charsOccur (pat : List Char) : List Char → Bool
  | [] => charsStartWith pat []
  | b :: bs => charsStartWith pat (b :: bs) || charsOccur pat bs

/-- JS `s.includes(pat)`. -/
def strIncludes (s pat : String) : Bool :=
  charsOccur pat.data s.data

/-- JS `Array.prototype.join(sep)` on a list of strings. -/
def joinSep (sep : String) : List String → String
  | [] => ""
  | [s] => s
  | s :: rest => s ++ sep ++ joinSep sep rest

/-- Plain concatenation of a list of strings (used to state the
content-preservation properties). -/
def concatStrings : List String → String
  | [] => ""
  | s :: rest => s ++ concatStrings rest

/-- Does the pipeline's normalization keep this character?  The source
regex is `/[^a-z0-9]/gi`, i.e. ASCII letters and digits survive. -/
def keepChar (c : Char) : Bool :=
  c.isAlpha || c.isDigit

/-- `normalizeText` from `speaker-identification.ts`: strip every
non-ASCII-alphanumeric character, then lowercase. -/
def normalizeText (text : String) : String :=
  ⟨(text.data.filter keepChar).map Char.toLower⟩

/-! ### Data model (section 3 of the spec; `ParagraphWord`/`ParagraphInput`
interfaces and `SpeakerInfo` from `speakers.ts`) -/

/-- A word with timestamps as produced by the speech service.  `stop`
embeds the source field `end` (a Lean keyword); `confidence` is a number
the pipeline never computes with, carried opaquely. -/
structure ParagraphWord where
  text : String
  start : Int
  stop : Int
  confidence : Int
  speaker : Option String
deriving Repr, DecidableEq

/-- A paragraph: text plus its word sequence (`ParagraphInput`). -/
structure ParagraphInput where
  text : String
  start : Int
  stop : Int
  words : List ParagraphWord
deriving Repr, DecidableEq

/-- `SpeakerInfo` from `speakers.ts`: all-nullable attribution tuple plus
the transient `is_off_record` flag (an optional field: `none` = absent). -/
structure SpeakerInfo where
  name : Option String
  function : Option String
  affiliation : Option String
  group : Option String
  is_off_record : Option Bool
deriving Repr, DecidableEq

/-- `speakersEqual` from `speaker-identification.ts`: the four-component
attribution tuple comparison; `is_off_record` is ignored. -/
def speakersEqual (a b : SpeakerInfo) : Bool :=
  a.name == b.name && a.function == b.function &&
  a.affiliation == b.affiliation && a.group == b.group

/-- One entry of the stage-4.2 completion response
(`ParagraphSpeakerMapping` schema). -/
structure AssignedParagraph where
  index : Nat
  name : Option String
  function : Option String
  affiliation : Option String
  group : Option String
  has_multiple_speakers : Bool
  is_off_record : Bool
deriving Repr, DecidableEq

/-- The `SpeakerInfo` stored for a response entry.  The source writes
`is_off_record: para.is_off_record || undefined`, so `false` is stored
as an absent field. -/
def assignedSpeaker (p : AssignedParagraph) : SpeakerInfo :=
  { name := p.name, function := p.function, affiliation := p.affiliation,
    group := p.group,
    is_off_record := if p.is_off_record then some true else none }

/-! ### Speaker mappings as JS objects with integer keys -/

/-- A speaker mapping: JS object keyed by the stringified paragraph
index.  Keys are kept in ascending order (JS enumeration order for
integer-like keys); a `none` value is a key holding `undefined`. -/
abbrev SpeakerMap : Type :=
  List (Nat × Option SpeakerInfo)

/-- Property assignment `m[k] = v` on an integer-keyed JS object:
overwrite if present, otherwise insert in ascending key position. -/
def mapSet (m : SpeakerMap) (k : Nat) (v : Option SpeakerInfo) : SpeakerMap :=
  match m with
  | [] => [(k, v)]
  | (k', v') :: rest =>
    if k < k' then (k, v) :: (k', v') :: rest
    else if k = k' then (k, v) :: rest
    else (k', v') :: mapSet rest k v

/-- Property read `m[k]`: a missing key and a key holding `undefined`
both read as `undefined` (`none`). -/
def mapGet (m : SpeakerMap) (k : Nat) : Option SpeakerInfo :=
  match m with
  | [] => none
  | (k', v') :: rest => if k = k' then v' else mapGet rest k

/-- The object `{0: vs[0], 1: vs[1], ...}` with keys starting at `j`. -/
def denseMapFrom (j : Nat) : List (Option SpeakerInfo) → SpeakerMap
  | [] => []
  | v :: vs => (j, v) :: denseMapFrom (j + 1) vs

/-- The mapping rebuilt with a fresh running index, as the source does
after resegmentation, off-record filtering and grouping: entry `i` is
the speaker of the `i`-th surviving paragraph. -/
def toSpeakerMap (prs : List (ParagraphInput × Option SpeakerInfo)) : SpeakerMap :=
  denseMapFrom 0 (prs.map (·.2))

/-- Building the initial mapping from the stage-4.2 response: the source
iterates the returned entries and assigns
`finalMapping[para.index.toString()] = {...}`. -/
def buildInitialMapping (asg : List AssignedParagraph) : SpeakerMap :=
  asg.foldl (fun m p => mapSet m p.index (some (assignedSpeaker p))) []

/-! ### Resegmentation engine (section 4.3; `resegmentParagraph`) -/

/-- Confidence tier of a resegmentation response. -/
inductive Confidence
  | high
  | medium
  | low
deriving Repr, DecidableEq

/-- One returned segment of a resegmentation response
(`ResegmentationResult.segments` entries). -/
structure SegmentOut where
  text : String
  name : Option String
  function : Option String
  affiliation : Option String
  group : Option String
deriving Repr, DecidableEq

/-- Outcome of one resegmentation completion call.  `contentFilter` is a
response with no content and finish reason `content_filter`;
`failure` is any other contentless or unparseable response (the task
throws); `parsed` is a schema-conformant response. -/
inductive ResegResponse
  | contentFilter
  | failure
  | parsed (should_split : Bool) (confidence : Confidence)
      (segments : List SegmentOut)
deriving Repr, DecidableEq

/-- JS `words.map(w => w.text).join(' ')`. -/
def joinWordTexts (ws : List ParagraphWord) : String :=
  joinSep " " (ws.map (·.text))

/-- The word-consumption loop of `resegmentParagraph`: starting from the
already-consumed `acc`, keep taking words while any remain and the
normalized text of the consumed words is still shorter than the target
normalized segment length.  Returns (consumed words, remaining words). -/
def consumeWords (segNormLen : Nat) :
    List ParagraphWord → List ParagraphWord → List ParagraphWord × List ParagraphWord
  | acc, [] => (acc, [])
  | acc, w :: rest =>
    if (normalizeText (joinWordTexts acc)).length < segNormLen then
      consumeWords segNormLen (acc ++ [w]) rest
    else (acc, w :: rest)

/-- Last element of `w :: ws`. -/
def lastWord (w : ParagraphWord) : List ParagraphWord → ParagraphWord
  | [] => w
  | w' :: ws => lastWord w' ws

/-- Building one output segment from its consumed words: the source
pushes a paragraph (text rebuilt from the words, bounds from the first
and last word) and the segment's attribution only when at least one word
was consumed. -/
def segmentFromWords (seg : SegmentOut) :
    List ParagraphWord → Option (ParagraphInput × SpeakerInfo)
  | [] => none
  | w :: ws =>
    some ({ text := joinWordTexts (w :: ws), start := w.start,
            stop := (lastWord w ws).stop, words := w :: ws },
          { name := seg.name, function := seg.function,
            affiliation := seg.affiliation, group := seg.group,
            is_off_record := none })

/-- The segment-to-words matching loop of `resegmentParagraph`: the
returned segments greedily consume the paragraph's word sequence; the
two parallel result arrays (segments, speakers) are modelled as a list
of pairs since the source pushes to both in lockstep. -/
def matchSegments : List SegmentOut → List ParagraphWord → List (ParagraphInput × SpeakerInfo)
  | [], _ => []
  | seg :: rest, ws =>
    let res := consumeWords (normalizeText seg.text).length [] ws
    match segmentFromWords seg res.1 with
    | none => matchSegments rest res.2
    | some out => out :: matchSegments rest res.2

/-- `resegmentParagraph` after the completion call: keep the paragraph
unsplit (with the attribution it entered with) on a content-filter
refusal, on `should_split = false`, or on a low-confidence split;
otherwise apply the greedy word re-attribution.  `none` models the
thrown error for a contentless or unparseable response.  The integrity
check of the source only logs a warning and changes no data, so it has
no counterpart here. -/
def resegmentParagraph (paragraph : ParagraphInput)
    (currentSpeaker : Option SpeakerInfo) (resp : ResegResponse) :
    Option (List (ParagraphInput × Option SpeakerInfo)) :=
  match resp with
  | .contentFilter => some [(paragraph, currentSpeaker)]
  | .failure => none
  | .parsed should_split confidence segments =>
    if !should_split then some [(paragraph, currentSpeaker)]
    else if confidence = .low then some [(paragraph, currentSpeaker)]
    else some ((matchSegments segments paragraph.words).map
      (fun out => (out.1, some out.2)))

/-! ### Stage 4.2 and the resegmentation fan-out/fan-in of `identifySpeakers` -/

/-- The speaker-assignment stage of `identifySpeakers` (lines 564-700):
throw when called with no paragraphs or when the completion response has
no content; otherwise build the initial mapping directly from the parsed
entries.  No coverage validation is performed. -/
def speakerAssignmentStage (paragraphs : List ParagraphInput)
    (response : Option (List AssignedParagraph)) : Option SpeakerMap :=
  if paragraphs.isEmpty then none
  else response.map buildInitialMapping

/-- The indices flagged `has_multiple_speakers` in the stage-4.2
response (`toResegment`). -/
def toResegIndices (asg : List AssignedParagraph) : List Nat :=
  (asg.filter (·.has_multiple_speakers)).map (·.index)

/-- Running the resegmentation task for every flagged index.  A flagged
index outside the paragraph range makes that task throw (the source
dereferences the missing paragraph), and a `failure` response throws;
either rejects the joined `Promise.all`. -/
def collectReseg (paragraphs : List ParagraphInput) (m0 : SpeakerMap)
    (rsp : Nat → ResegResponse) :
    List Nat → Option (List (Nat × List (ParagraphInput × Option SpeakerInfo)))
  | [] => some []
  | i :: rest =>
    match paragraphs[i]? with
    | none => none
    | some p =>
      match resegmentParagraph p (mapGet m0 i) (rsp i) with
      | none => none
      | some out =>
        match collectReseg paragraphs m0 rsp rest with
        | none => none
        | some tail => some ((i, out) :: tail)

/-- The rebuild loop of `identifySpeakers`: walk the original paragraph
positions in order; a position with a resegmentation result contributes
that result's segments, any other position keeps the original paragraph
with its initial attribution. -/
def rebuildLoop (results : List (Nat × List (ParagraphInput × Option SpeakerInfo)))
    (m0 : SpeakerMap) : Nat → List ParagraphInput → List (ParagraphInput × Option SpeakerInfo)
  | _, [] => []
  | i, p :: ps =>
    (match results.find? (fun r => r.1 == i) with
     | some r => r.2
     | none => [(p, mapGet m0 i)]) ++ rebuildLoop results m0 (i + 1) ps

/-- The whole resegmentation block: skipped when nothing is flagged,
otherwise fan out, join, and rebuild the paragraph list and mapping. -/
def resegmentStage (paragraphs : List ParagraphInput) (m0 : SpeakerMap)
    (toReseg : List Nat) (rsp : Nat → ResegResponse) :
    Option (List ParagraphInput × SpeakerMap) :=
  if toReseg.isEmpty then some (paragraphs, m0)
  else
    match collectReseg paragraphs m0 rsp toReseg with
    | none => none
    | some results =>
      let pairs := rebuildLoop results m0 0 paragraphs
      some (pairs.map (·.1), toSpeakerMap pairs)

/-! ### Consolidation stage (section 4.4): off-record filter and grouping -/

/-- `Object.keys(finalMapping).filter(idx => finalMapping[idx].is_off_record)`:
visits every present key in ascending order; reading `.is_off_record` of
a key holding `undefined` throws. -/
def offRecordKeys : SpeakerMap → Option (List Nat)
  | [] => some []
  | (_, none) :: _ => none
  | (k, some s) :: rest =>
    (offRecordKeys rest).map
      (fun ks => if s.is_off_record == some true then k :: ks else ks)

/-- The off-record filtering loop: keep paragraph `i` when its mapping
entry's `is_off_record` is falsy, deleting the flag from the kept
speaker; reading the flag of a missing/`undefined` entry throws. -/
def filterOffRecordLoop (m : SpeakerMap) :
    Nat → List ParagraphInput → Option (List (ParagraphInput × SpeakerInfo))
  | _, [] => some []
  | i, p :: ps =>
    match mapGet m i with
    | none => none
    | some s =>
      if s.is_off_record == some true then filterOffRecordLoop m (i + 1) ps
      else
        (filterOffRecordLoop m (i + 1) ps).map
          (fun rest => (p, { s with is_off_record := none }) :: rest)

/-- The off-record block of `identifySpeakers`: compute the flagged key
list; if it is empty the block is skipped entirely, otherwise re-filter
and re-index. -/
def offRecordStage (ps : List ParagraphInput) (m : SpeakerMap) :
    Option (List ParagraphInput × SpeakerMap) :=
  match offRecordKeys m with
  | none => none
  | some offKeys =>
    if offKeys.isEmpty then some (ps, m)
    else
      match filterOffRecordLoop m 0 ps with
      | none => none
      | some kept =>
        some (kept.map (·.1), denseMapFrom 0 (kept.map (fun x => some x.2)))

/-- `speakersEqual` as the source invokes it on possibly-`undefined`
mapping values: dereferencing a field of `undefined` throws. -/
def speakersEqualJs : Option SpeakerInfo → Option SpeakerInfo → Option Bool
  | some a, some b => some (speakersEqual a b)
  | _, _ => none

/-- Merging the next paragraph into the current group (text joined with
a blank line, words concatenated, ends extended). -/
def mergeParagraphs (a b : ParagraphInput) : ParagraphInput :=
  { text := a.text ++ "\n\n" ++ b.text, start := a.start, stop := b.stop,
    words := a.words ++ b.words }

/-- The same-speaker grouping loop over positions `i, i+1, ...`:
`cur`/`curSpk` are the group being accumulated (the speaker compared
against is always the group's first), and a group is emitted when the
speaker changes. -/
def groupLoop (m : SpeakerMap) :
    ParagraphInput → Option SpeakerInfo → Nat → List ParagraphInput →
    Option (List (ParagraphInput × Option SpeakerInfo))
  | cur, curSpk, _, [] => some [(cur, curSpk)]
  | cur, curSpk, i, p :: ps =>
    match speakersEqualJs curSpk (mapGet m i) with
    | none => none
    | some true => groupLoop m (mergeParagraphs cur p) curSpk (i + 1) ps
    | some false =>
      (groupLoop m p (mapGet m i) (i + 1) ps).map
        (fun rest => (cur, curSpk) :: rest)

/-- The grouping block: runs only on a nonempty paragraph list, seeding
the loop with paragraph 0 and `finalMapping['0']`. -/
def groupParagraphs (ps : List ParagraphInput) (m : SpeakerMap) :
    Option (List (ParagraphInput × Option SpeakerInfo)) :=
  match ps with
  | [] => some []
  | p :: rest => groupLoop m p (mapGet m 0) 1 rest

/-- The deterministic core of `identifySpeakers`: everything the
function computes from the paragraphs and the completion-service
responses, ending with the final statement list and mapping that are
persisted and returned.  `none` is a thrown error (stage failure). -/
def identifySpeakersCore (paragraphs : List ParagraphInput)
    (asg : Option (List AssignedParagraph)) (rsp : Nat → ResegResponse) :
    Option (List ParagraphInput × SpeakerMap) :=
  match speakerAssignmentStage paragraphs asg with
  | none => none
  | some m0 =>
    match asg with
    | none => none
    | some parsed =>
      match resegmentStage paragraphs m0 (toResegIndices parsed) rsp with
      | none => none
      | some (ps1, m1) =>
        match offRecordStage ps1 m1 with
        | none => none
        | some (ps2, m2) =>
          if ps2.isEmpty then some (ps2, m2)
          else
            match groupParagraphs ps2 m2 with
            | none => none
            | some pairs => some (pairs.map (·.1), toSpeakerMap pairs)

/-! ### Topic engine (section 4.5; `defineTopics` and
`tagParagraphsWithTopics`) -/

/-- JS `toLowerCase` at the character-list level (ASCII lowering, which
is all the chair keywords need). -/
def strToLower (s : String) : String :=
  ⟨s.data.map Char.toLower⟩

/-- JS `speaker?.function?.toLowerCase().includes('chair') || ...`:
chair / president / moderator detection on the function field;
`undefined` anywhere along the chain is falsy. -/
def isChairSpeaker : Option SpeakerInfo → Bool
  | none => false
  | some s =>
    match s.function with
    | none => false
    | some f =>
      strIncludes (strToLower f) "chair" || strIncludes (strToLower f) "president" ||
      strIncludes (strToLower f) "moderator"

/-- One topic of the `TopicDefinitions` response. -/
structure TopicDef where
  key : String
  description : String
  color : String
deriving Repr, DecidableEq

/-- The non-chair statements `defineTopics` builds its context from:
every paragraph whose mapped speaker is not a chair, with its index. -/
def substantiveStatements (ps : List ParagraphInput) (m : SpeakerMap) :
    List (Nat × ParagraphInput) :=
  (ps.enum.map (fun ip => (ip.1, ip.2))).filter
    (fun ip => !isChairSpeaker (mapGet m ip.1))

/-- Insertion into a string-keyed JS record: overwrite in place,
otherwise append (JS insertion order for string keys). -/
def recordInsert (m : List (String × TopicDef)) (k : String) (v : TopicDef) :
    List (String × TopicDef) :=
  match m with
  | [] => [(k, v)]
  | (k', v') :: rest =>
    if k == k' then (k, v) :: rest else (k', v') :: recordInsert rest k v

/-- `topicsRecord`: the parsed topic array keyed by topic key. -/
def topicsToRecord (ts : List TopicDef) : List (String × TopicDef) :=
  ts.foldl (fun m t => recordInsert m t.key t) []

/-- `defineTopics` around its single completion call: return the empty
record without calling when fewer than two non-chair statements exist;
otherwise issue the call (`Bool` result component) and fail on a
contentless response.  The first component is the resulting record,
`none` meaning the function threw. -/
def defineTopics (ps : List ParagraphInput) (m : SpeakerMap)
    (resp : Option (List TopicDef)) :
    Option (List (String × TopicDef)) × Bool :=
  if (substantiveStatements ps m).length < 2 then (some [], false)
  else
    match resp with
    | none => (none, true)
    | some ts => (some (topicsToRecord ts), true)

/-- Outcome of one tagging completion call: a caught exception, a
contentless response, or a parsed tag object. -/
inductive TagResponse
  | failure
  | noContent
  | parsed (paragraph_index : Nat) (topic_keys : List String)
deriving Repr, DecidableEq

/-- Result of one statement's tagging task: the index it reports, its
tag keys, and whether a completion call was issued for it. -/
structure TagOutcome where
  paragraph_index : Nat
  topic_keys : List String
  called : Bool
deriving Repr, DecidableEq

/-- One tagging task of `tagParagraphsWithTopics`: chair statements
return an empty tag set without any call; otherwise the call is issued
and every failure degrades to an empty tag set. -/
def tagOne (m : SpeakerMap) (idx : Nat) (rsp : TagResponse) : TagOutcome :=
  if isChairSpeaker (mapGet m idx) then ⟨idx, [], false⟩
  else
    match rsp with
    | .failure => ⟨idx, [], true⟩
    | .noContent => ⟨idx, [], true⟩
    | .parsed _ keys => ⟨idx, keys, true⟩

/-- `tagParagraphsWithTopics`: with no topics defined, return with no
task even created; otherwise run one task per statement. -/
def tagParagraphsWithTopics (ps : List ParagraphInput)
    (topics : List (String × TopicDef)) (m : SpeakerMap)
    (rsp : Nat → TagResponse) : List TagOutcome :=
  if topics.isEmpty then []
  else ps.enum.map (fun ip => tagOne m ip.1 (rsp ip.1))

/-! ### Transcript store, pipeline lock and driver (`turso.ts`,
`speakers.ts`) -/

/-- The transcript status state machine's states. -/
inductive TranscriptStatus
  | transcribing
  | transcribed
  | identifying_speakers
  | analyzing_topics
  | completed
  | error
deriving Repr, DecidableEq

/-- The fields of a `transcripts` row that the lock manager and the
pipeline driver read or write.  `pipeline_lock` holds the acquisition
instant (ISO-8601 in the source, embedded as milliseconds);
`raw_paragraphs` is the relevant part of the JSON `content` column,
`none` when the key is absent. -/
structure TranscriptRow where
  status : TranscriptStatus
  error_message : Option String
  pipeline_lock : Option Int
  raw_paragraphs : Option (List ParagraphInput)
deriving Repr, DecidableEq

/-- The fixed lock staleness timeout (30 minutes in milliseconds). -/
def PIPELINE_LOCK_TIMEOUT_MS : Int := 30 * 60 * 1000

/-- `tryAcquirePipelineLock`: the conditional update
`SET pipeline_lock = now WHERE transcript_id = ? AND (pipeline_lock IS
NULL OR pipeline_lock < now - timeout)`; the returned `Bool` is
`rowsAffected > 0`.  A missing row affects nothing and fails. -/
def tryAcquirePipelineLock (now : Int) (row : Option TranscriptRow) :
    Bool × Option TranscriptRow :=
  match row with
  | none => (false, none)
  | some r =>
    match r.pipeline_lock with
    | none => (true, some { r with pipeline_lock := some now })
    | some t =>
      if t < now - PIPELINE_LOCK_TIMEOUT_MS then
        (true, some { r with pipeline_lock := some now })
      else (false, some r)

/-- `releasePipelineLock`: unconditionally clear the marker. -/
def releasePipelineLock (row : Option TranscriptRow) : Option TranscriptRow :=
  row.map (fun r => { r with pipeline_lock := none })

/-- `updateTranscriptStatus`: set status and error message (the message
column is overwritten with NULL when no message is passed). -/
def updateTranscriptStatus (row : Option TranscriptRow)
    (st : TranscriptStatus) (msg : Option String) : Option TranscriptRow :=
  row.map (fun r => { r with status := st, error_message := msg })

/-- `runPipeline` from `speakers.ts`, with the speaker-identification
stage abstracted as an `Except` oracle: mark the transcript as
identifying speakers, fail when no raw paragraphs are stored, then on
stage success mark completed and release the lock, and on any thrown
error mark `error` with the message and release the lock before
rethrowing. -/
def runPipeline (row : Option TranscriptRow)
    (identifyResult : Except String Unit) : Option TranscriptRow :=
  let r1 := updateTranscriptStatus row .identifying_speakers none
  if (r1.bind (fun r => r.raw_paragraphs)).isSome then
    match identifyResult with
    | .ok _ =>
      releasePipelineLock (updateTranscriptStatus r1 .completed none)
    | .error msg =>
      releasePipelineLock (updateTranscriptStatus r1 .error (some msg))
  else
    releasePipelineLock
      (updateTranscriptStatus r1 .error (some "No raw paragraphs available"))

/-! ### Concrete fixtures for witnesses and counterexamples -/

/-- A word "Hello" at 0-5 ms. -/
def pW1 : ParagraphWord := ⟨"Hello", 0, 5, 1, none⟩

/-- A word "world." at 6-12 ms. -/
def pW2 : ParagraphWord := ⟨"world.", 6, 12, 1, none⟩

/-- A two-word paragraph "Hello world.". -/
def pHW : ParagraphInput := ⟨"Hello world.", 0, 12, [pW1, pW2]⟩

/-- The paragraph holding only the first word. -/
def pH : ParagraphInput := ⟨"Hello", 0, 5, [pW1]⟩

/-- The all-null attribution tuple. -/
def nullSpk : SpeakerInfo := ⟨none, none, none, none, none⟩

/-- An attribution whose function field matches the chair detection. -/
def chairSpk : SpeakerInfo := ⟨none, some "Chair", none, none, none⟩

/-- A stage-4.2 response entry flagging paragraph 0 as multi-speaker. -/
def asgFlag : AssignedParagraph := ⟨0, none, none, none, none, true, false⟩

/-- A returned segment whose text is the first word only. -/
def segHello : SegmentOut := ⟨"Hello", none, none, none, none⟩

/-- A stage-4.2 response entry attributing paragraph 0 to the all-null
speaker, unflagged and on-record. -/
def asgPlain : AssignedParagraph := ⟨0, none, none, none, none, false, false⟩

/-! ### Claim C5: deterministic reassembly after resegmentation -/

/-- The paragraph the source reads at a flagged index (`paragraphs[idx]`),
with a dummy for the out-of-range case (which throws before this value
is ever used). -/
def paraAt (ps : List ParagraphInput) (i : Nat) : ParagraphInput :=
  (ps[i]?).getD ⟨"", 0, 0, []⟩

/-- The contribution of one original paragraph (paired with its
assignment entry) to the rebuilt sequence, following the spec's
reassembly rule: a flagged paragraph expands into the segments its
resegmentation produced, an unflagged paragraph is kept in place with
its assigned speaker. -/
def rebuildContribution (rsp : Nat → ResegResponse)
    (pa : ParagraphInput × AssignedParagraph) :
    List (ParagraphInput × Option SpeakerInfo) :=
  if pa.2.has_multiple_speakers then
    (resegmentParagraph pa.1 (some (assignedSpeaker pa.2)) (rsp pa.2.index)).getD []
  else [(pa.1, some (assignedSpeaker pa.2))]

/-! ### Claim C6: same-speaker grouping -/

/-- Placeholder paragraph (never produced by the pipeline; used only to
make reference functions total on the impossible empty run). -/
def dfltPara : ParagraphInput := ⟨"", 0, 0, []⟩

/-- The merged paragraph of a run: the run's first paragraph with every
later member folded in by `mergeParagraphs`, exactly as the grouping
loop accumulates its current group. -/
def runPara : List (ParagraphInput × SpeakerInfo) → ParagraphInput
  | [] => dfltPara
  | x :: xs => (xs.map (·.1)).foldl mergeParagraphs x.1

/-- The Statement a run becomes: its merged paragraph attributed to the
run's first speaker. -/
def runStatement (run : List (ParagraphInput × SpeakerInfo)) :
    ParagraphInput × Option SpeakerInfo :=
  match run with
  | [] => (dfltPara, none)
  | x :: _ => (runPara run, some x.2)

/-- Reference chunking of an attributed paragraph sequence following the
spec's grouping rule: scan sequentially, extending the current run while
the next paragraph's attribution equals the run's first, and starting a
new run otherwise.  `accRev` is the current run's tail accumulated in
reverse. -/
def chunkGo (first : ParagraphInput × SpeakerInfo)
    (accRev : List (ParagraphInput × SpeakerInfo)) :
    List (ParagraphInput × SpeakerInfo) → List (List (ParagraphInput × SpeakerInfo))
  | [] => [first :: accRev.reverse]
  | y :: ys =>
    if speakersEqual first.2 y.2 then chunkGo first (y :: accRev) ys
    else (first :: accRev.reverse) :: chunkGo y [] ys

/-- Runs of consecutive equal attributions. -/
def chunkBySpeaker : List (ParagraphInput × SpeakerInfo) →
    List (List (ParagraphInput × SpeakerInfo))
  | [] => []
  | x :: xs => chunkGo x [] xs

/-- The mapping holds exactly these speakers at consecutive indices
starting at `i`. -/
def mapMatches (m : SpeakerMap) : Nat → List SpeakerInfo → Prop
  | _, [] => True
  | i, s :: rest => mapGet m i = some s ∧ mapMatches m (i + 1) rest

/-! ### Claim C3: content preservation -/

/-- Normalized concatenation of a paragraph list's texts (the quantity
the content-preservation property compares). -/
def normCatP (l : List ParagraphInput) : String :=
  normalizeText (concatStrings (l.map (·.text)))

/-- Concatenation of the normalized word texts of a word list. -/
def nWords (ws : List ParagraphWord) : String :=
  concatStrings (ws.map (fun w => normalizeText w.text))

/-- Deleting the transient off-record flag from a kept speaker
(`delete speaker.is_off_record`). -/
def offClear (s : SpeakerInfo) : SpeakerInfo :=
  { s with is_off_record := none }

/-- Truthiness of `finalMapping[idx].is_off_record` for a pair whose
speaker may be `undefined` (an `undefined` speaker would throw before
this is consulted; it is falsy here only for totality). -/
def pairOff (x : ParagraphInput × Option SpeakerInfo) : Bool :=
  match x.2 with
  | some s => s.is_off_record == some true
  | none => false

/-- The combined effect of the off-record block on a defined pair list:
drop the flagged pairs and delete the flag from the kept speakers. -/
def offFilterO (pairs : List (ParagraphInput × Option SpeakerInfo)) :
    List (ParagraphInput × Option SpeakerInfo) :=
  (pairs.filter (fun x => !pairOff x)).map (fun x => (x.1, x.2.map offClear))

/-- The mapping holds exactly these values at consecutive indices
starting at `i`. -/
def mapHolds (m : SpeakerMap) : Nat → List (Option SpeakerInfo) → Prop
  | _, [] => True
  | i, v :: rest => mapGet m i = v ∧ mapHolds m (i + 1) rest

theorem string_data_append (a b : String) : (a ++ b).data = a.data ++ b.data := by
  cases a; cases b; rfl

theorem normalizeText_append (a b : String) :
    normalizeText (a ++ b) = normalizeText a ++ normalizeText b := by
  unfold normalizeText
  apply congrArg String.mk
  rw [string_data_append, List.filter_append, List.map_append]

theorem normalizeText_space : normalizeText " " = "" := by decide

theorem normalizeText_sep : normalizeText "\n\n" = "" := by decide

theorem normalizeText_joinSep_space (l : List String) :
    normalizeText (joinSep " " l) = concatStrings (l.map normalizeText) := by
  induction l with
  | nil => decide
  | cons s rest ih =>
    cases rest with
    | nil => simp [joinSep, concatStrings]
    | cons t r =>
      rw [show joinSep " " (s :: t :: r) = s ++ " " ++ joinSep " " (t :: r) from rfl,
        normalizeText_append, normalizeText_append, normalizeText_space, ih]
      simp [concatStrings]

theorem normalizeText_joinSep_para (l : List String) :
    normalizeText (joinSep "\n\n" l) = concatStrings (l.map normalizeText) := by
  induction l with
  | nil => decide
  | cons s rest ih =>
    cases rest with
    | nil => simp [joinSep, concatStrings]
    | cons t r =>
      rw [show joinSep "\n\n" (s :: t :: r) = s ++ "\n\n" ++ joinSep "\n\n" (t :: r) from rfl,
        normalizeText_append, normalizeText_append, normalizeText_sep, ih]
      simp [concatStrings]

theorem concatStrings_append (a b : List String) :
    concatStrings (a ++ b) = concatStrings a ++ concatStrings b := by
  induction a with
  | nil => simp [concatStrings]
  | cons s rest ih => simp [concatStrings, ih, String.append_assoc]

theorem speakersEqual_refl (a : SpeakerInfo) : speakersEqual a a = true := by
  simp [speakersEqual]

theorem mapGet_denseMapFrom_lt (j i : Nat) (vs : List (Option SpeakerInfo))
    (h : i < j) : mapGet (denseMapFrom j vs) i = none := by
  induction vs generalizing j with
  | nil => rfl
  | cons v vs ih =>
    rw [denseMapFrom, mapGet]
    rw [if_neg (by omega)]
    exact ih (j + 1) (by omega)

theorem mapGet_denseMapFrom (j k : Nat) (vs : List (Option SpeakerInfo)) :
    mapGet (denseMapFrom j vs) (j + k) = (vs[k]?).getD none := by
  induction vs generalizing j k with
  | nil => rfl
  | cons v vs ih =>
    rw [denseMapFrom, mapGet]
    cases k with
    | zero => simp
    | succ k =>
      rw [if_neg (by omega)]
      have : j + (k + 1) = (j + 1) + k := by omega
      rw [this, ih (j + 1) k]
      simp

/-! ### Mapping lemmas -/
theorem mapGet_mapSet (m : SpeakerMap) (k i : Nat) (v : Option SpeakerInfo) :
    mapGet (mapSet m k v) i = if i = k then v else mapGet m i := by
  induction m with
  | nil => simp [mapSet, mapGet]
  | cons kv rest ih =>
    obtain ⟨k', v'⟩ := kv
    simp only [mapSet]
    split
    · simp only [mapGet]
    · split
      · simp only [mapGet]
        split_ifs <;> first | rfl | omega
      · simp only [mapGet, ih]
        split_ifs <;> first | rfl | omega

theorem buildInitialMapping_append (asg : List AssignedParagraph)
    (a : AssignedParagraph) :
    buildInitialMapping (asg ++ [a]) =
      mapSet (buildInitialMapping asg) a.index (some (assignedSpeaker a)) := by
  unfold buildInitialMapping
  rw [List.foldl_append]
  rfl

theorem mapGet_buildInitialMapping (asg : List AssignedParagraph) (i : Nat) :
    mapGet (buildInitialMapping asg) i =
      (asg.reverse.find? (fun a => a.index == i)).map assignedSpeaker := by
  induction asg using List.reverseRecOn with
  | nil => rfl
  | append_singleton as a ih =>
    rw [buildInitialMapping_append, mapGet_mapSet, List.reverse_append]
    simp only [List.reverse_singleton, List.singleton_append, List.find?_cons]
    by_cases h : i = a.index
    · simp [h]
    · have hb : (a.index == i) = false := by
        simp
        omega
      rw [hb, if_neg h, ih]

/-! ### Claim C2: lock acquisition -/

/-- C2: for a transcript record present in the store, `tryAcquirePipelineLock`
succeeds if and only if the lock field is null or holds a timestamp more
than the 30-minute timeout older than now; on success the lock is set to
the current timestamp, on failure the record is unchanged. -/
theorem tryAcquirePipelineLock_spec (now : Int) (r : TranscriptRow) :
    ((tryAcquirePipelineLock now (some r)).1 = true ↔
      r.pipeline_lock = none ∨
        ∃ t, r.pipeline_lock = some t ∧ t + PIPELINE_LOCK_TIMEOUT_MS < now) ∧
    ((tryAcquirePipelineLock now (some r)).1 = true →
      (tryAcquirePipelineLock now (some r)).2 =
        some { r with pipeline_lock := some now }) ∧
    ((tryAcquirePipelineLock now (some r)).1 = false →
      (tryAcquirePipelineLock now (some r)).2 = some r) := by
  cases h : r.pipeline_lock with
  | none =>
    have he : tryAcquirePipelineLock now (some r) =
        (true, some { r with pipeline_lock := some now }) := by
      simp [tryAcquirePipelineLock, h]
    rw [he]
    refine ⟨?_, ?_, ?_⟩
    · simp [h]
    · intro _
      rfl
    · intro hf
      simp at hf
  | some t =>
    by_cases hlt : t < now - PIPELINE_LOCK_TIMEOUT_MS
    · have he : tryAcquirePipelineLock now (some r) =
          (true, some { r with pipeline_lock := some now }) := by
        simp [tryAcquirePipelineLock, h, hlt]
      rw [he]
      refine ⟨?_, ?_, ?_⟩
      · constructor
        · intro _
          exact Or.inr ⟨t, rfl, by omega⟩
        · intro _
          rfl
      · intro _
        rfl
      · intro hf
        simp at hf
    · have he : tryAcquirePipelineLock now (some r) = (false, some r) := by
        simp [tryAcquirePipelineLock, h, hlt]
      rw [he]
      refine ⟨?_, ?_, ?_⟩
      · constructor
        · intro hf
          simp at hf
        · rintro (hnone | ⟨t', ht', hage⟩)
          · cases hnone
          · injection ht' with he'
            omega
      · intro hf
        simp at hf
      · intro _
        rfl

/-- Witness for C2: a caller at t=1800001 ms steals a lock stamped at 0
(older than the 30-minute timeout) and stamps its own time, while a
caller at t=2000000 ms fails against a fresh lock stamped at 500000. -/
theorem tryAcquirePipelineLock_spec_witness :
    (tryAcquirePipelineLock 1800001 (some ⟨.transcribed, none, some 0, none⟩)).1 = true ∧
    (tryAcquirePipelineLock 1800001 (some ⟨.transcribed, none, some 0, none⟩)).2 =
      some ⟨.transcribed, none, some 1800001, none⟩ ∧
    (tryAcquirePipelineLock 2000000 (some ⟨.transcribed, none, some 500000, none⟩)).1 = false := by
  have h1 := tryAcquirePipelineLock_spec 1800001 ⟨.transcribed, none, some 0, none⟩
  have hs : (tryAcquirePipelineLock 1800001
      (some ⟨.transcribed, none, some 0, none⟩)).1 = true :=
    h1.1.mpr (Or.inr ⟨0, rfl, by decide⟩)
  refine ⟨hs, ?_, by decide⟩
  simpa using h1.2.1 hs

/-! ### Claim C7: lock release and error recording on every exit path -/

/-- C7: whatever the transcript row and the outcome of the
speaker-identification stage, `runPipeline` leaves the pipeline lock
cleared; when the stage throws, the transcript is put into `error` with
the thrown message, when the stored content has no raw paragraphs the
transcript is put into `error` with that message, and on success it is
marked `completed` — the lock is released on every one of these exit
paths. -/
theorem runPipeline_releases_lock (row : Option TranscriptRow)
    (res : Except String Unit) :
    (∀ r', runPipeline row res = some r' → r'.pipeline_lock = none) ∧
    (∀ r, row = some r → r.raw_paragraphs.isSome = false →
      runPipeline row res = some { r with
        status := .error,
        error_message := some "No raw paragraphs available",
        pipeline_lock := none }) ∧
    (∀ r msg, row = some r → r.raw_paragraphs.isSome = true → res = .error msg →
      runPipeline row res = some { r with
        status := .error, error_message := some msg, pipeline_lock := none }) ∧
    (∀ r, row = some r → r.raw_paragraphs.isSome = true → res = .ok () →
      runPipeline row res = some { r with
        status := .completed, error_message := none, pipeline_lock := none }) := by
  refine ⟨?_, ?_, ?_, ?_⟩
  · intro r' hr'
    cases row with
    | none =>
      cases res <;> simp [runPipeline, updateTranscriptStatus,
        releasePipelineLock] at hr'
    | some r =>
      cases hp : r.raw_paragraphs <;> cases res <;>
        simp [runPipeline, updateTranscriptStatus, releasePipelineLock, hp] at hr' <;>
        simp [← hr']
  · rintro r rfl hp
    cases hp' : r.raw_paragraphs with
    | none =>
      cases res <;>
        simp [runPipeline, updateTranscriptStatus, releasePipelineLock, hp']
    | some l => rw [hp'] at hp; simp at hp
  · rintro r msg rfl hp rfl
    cases hp' : r.raw_paragraphs with
    | none => rw [hp'] at hp; simp at hp
    | some l =>
      simp [runPipeline, updateTranscriptStatus, releasePipelineLock, hp']
  · rintro r rfl hp rfl
    cases hp' : r.raw_paragraphs with
    | none => rw [hp'] at hp; simp at hp
    | some l =>
      simp [runPipeline, updateTranscriptStatus, releasePipelineLock, hp']

/-- Witness for C7: a failing run on a locked row with stored paragraphs
ends in `error` with the message recorded and the lock cleared. -/
theorem runPipeline_releases_lock_witness :
    runPipeline (some ⟨.identifying_speakers, none, some 5, some [pHW]⟩)
      (.error "boom") =
      some ⟨.error, some "boom", none, some [pHW]⟩ := by
  have h := runPipeline_releases_lock
    (some ⟨.identifying_speakers, none, some 5, some [pHW]⟩) (.error "boom")
  simpa using h.2.2.1 _ "boom" rfl rfl rfl

/-! ### Claim C4: conservative resegmentation -/

/-- C4: a resegmentation response with `should_split = false`, or with
confidence `low`, keeps the flagged paragraph unsplit as the single
output segment, with the attribution it entered the stage with. -/
theorem resegmentParagraph_conservative (para : ParagraphInput)
    (spk : Option SpeakerInfo) (ss : Bool) (conf : Confidence)
    (segs : List SegmentOut) (h : ss = false ∨ conf = .low) :
    resegmentParagraph para spk (.parsed ss conf segs) = some [(para, spk)] := by
  rcases h with h | h
  · subst h; simp [resegmentParagraph]
  · subst h; cases ss <;> simp [resegmentParagraph]

/-- Witness for C4: a low-confidence split of the fixture paragraph is
discarded and the paragraph kept with its original attribution. -/
theorem resegmentParagraph_conservative_witness :
    resegmentParagraph pHW (some nullSpk) (.parsed true .low [segHello]) =
      some [(pHW, some nullSpk)] :=
  resegmentParagraph_conservative pHW (some nullSpk) true .low [segHello]
    (Or.inr rfl)

/-! ### Claim C1: coverage of the speaker-assignment stage -/

/-- C1 (amended): after the speaker-assignment stage the mapping holds
exactly one attribution per index present in the completion response
(for duplicated indices the last entry wins), and the stage performs no
coverage validation: it succeeds for any parsed response, including one
that omits indices, leaving the omitted paragraphs unattributed. -/
theorem speakerAssignment_no_coverage_check (paragraphs : List ParagraphInput)
    (asg : List AssignedParagraph) (h : paragraphs ≠ []) :
    speakerAssignmentStage paragraphs (some asg) = some (buildInitialMapping asg) ∧
    ∀ i, mapGet (buildInitialMapping asg) i =
      (asg.reverse.find? (fun a => a.index == i)).map assignedSpeaker := by
  constructor
  · simp [speakerAssignmentStage, h]
  · exact fun i => mapGet_buildInitialMapping asg i

/-- Witness for C1 (amended): on a one-paragraph transcript with a
one-entry response the stage succeeds and index 0 maps to that entry's
attribution. -/
theorem speakerAssignment_no_coverage_check_witness :
    speakerAssignmentStage [pHW] (some [asgFlag]) =
      some (buildInitialMapping [asgFlag]) ∧
    mapGet (buildInitialMapping [asgFlag]) 0 = some (assignedSpeaker asgFlag) := by
  have h := speakerAssignment_no_coverage_check [pHW] [asgFlag] (by decide)
  exact ⟨h.1, by rw [h.2 0]; rfl⟩

/-- Counterexample for C1 as stated: a completion response that omits
index 0 of a one-paragraph transcript does not fail the stage — the
whole pipeline completes, returning the paragraph with no attribution
(the final mapping's key 0 holds `undefined`), so an omitted index is
neither detected nor an error. -/
theorem speakerAssignment_omitted_index_not_an_error :
    identifySpeakersCore [pHW] (some []) (fun _ => ResegResponse.contentFilter) =
      some ([pHW], [(0, none)]) ∧
    mapGet [(0, none)] 0 = none := by
  exact ⟨by decide, rfl⟩

/-! ### Claim C8: topic engine skip condition -/

/-- C8: with fewer than two non-chair statements, topic definition
returns the empty record without issuing its completion call, and
tagging with an empty topic record creates no task and issues no call —
no error is raised anywhere on this path. -/
theorem topicEngine_skips_few_statements (ps : List ParagraphInput)
    (m : SpeakerMap) (tresp : Option (List TopicDef)) (trsp : Nat → TagResponse)
    (h : (substantiveStatements ps m).length < 2) :
    defineTopics ps m tresp = (some [], false) ∧
    tagParagraphsWithTopics ps [] m trsp = [] := by
  constructor
  · simp [defineTopics, h]
  · simp [tagParagraphsWithTopics]

/-- Witness for C8: a transcript with a single (non-chair) statement
skips topic definition and tagging without error. -/
theorem topicEngine_skips_few_statements_witness :
    defineTopics [pHW] [(0, some nullSpk)] (some [⟨"climate", "d", "#94a3b8"⟩]) =
      (some [], false) ∧
    tagParagraphsWithTopics [pHW] [] [(0, some nullSpk)] (fun _ => .failure) = [] :=
  topicEngine_skips_few_statements [pHW] [(0, some nullSpk)]
    (some [⟨"climate", "d", "#94a3b8"⟩]) (fun _ => .failure) (by decide)

/-! ### Claim C9: chair statements are never tagged -/
theorem tagOne_paragraph_index (m : SpeakerMap) (idx : Nat) (rsp : TagResponse) :
    (tagOne m idx rsp).paragraph_index = idx := by
  unfold tagOne
  split
  · rfl
  · cases rsp <;> rfl

/-- C9: every tagging outcome reported for a statement whose mapped
speaker matches the chair detection has an empty tag set and issued no
completion call. -/
theorem chair_statements_untagged (ps : List ParagraphInput)
    (topics : List (String × TopicDef)) (m : SpeakerMap)
    (rsp : Nat → TagResponse) (idx : Nat)
    (h : isChairSpeaker (mapGet m idx) = true) :
    ∀ o ∈ tagParagraphsWithTopics ps topics m rsp,
      o.paragraph_index = idx → o.topic_keys = [] ∧ o.called = false := by
  intro o ho hidx
  unfold tagParagraphsWithTopics at ho
  split at ho
  · simp at ho
  · obtain ⟨ip, _, rfl⟩ := List.mem_map.mp ho
    rw [tagOne_paragraph_index] at hidx
    rw [hidx]
    simp [tagOne, h]

/-- Witness for C9: with a chair-attributed statement and a tagging
oracle that would return a tag, the outcome for that statement is an
empty tag set with no call issued. -/
theorem chair_statements_untagged_witness :
    tagParagraphsWithTopics [pHW] [("t", ⟨"t", "d", "c"⟩)] [(0, some chairSpk)]
      (fun _ => .parsed 0 ["t"]) = [⟨0, [], false⟩] ∧
    (∀ o ∈ tagParagraphsWithTopics [pHW] [("t", ⟨"t", "d", "c"⟩)]
        [(0, some chairSpk)] (fun _ => .parsed 0 ["t"]),
      o.paragraph_index = 0 → o.topic_keys = [] ∧ o.called = false) :=
  ⟨by decide,
   chair_statements_untagged [pHW] [("t", ⟨"t", "d", "c"⟩)] [(0, some chairSpk)]
     (fun _ => .parsed 0 ["t"]) 0 (by decide)⟩

/-! ### Claim C10: greedy word re-attribution -/
theorem consumeWords_split (L : Nat) (acc ws : List ParagraphWord) :
    ∃ taken, (consumeWords L acc ws).1 = acc ++ taken ∧
      taken ++ (consumeWords L acc ws).2 = ws := by
  induction ws generalizing acc with
  | nil => exact ⟨[], by simp [consumeWords], by simp [consumeWords]⟩
  | cons w rest ih =>
    by_cases h : (normalizeText (joinWordTexts acc)).length < L
    · obtain ⟨taken', h1, h2⟩ := ih (acc ++ [w])
      refine ⟨w :: taken', ?_, ?_⟩
      · rw [consumeWords, if_pos h, h1]
        simp
      · rw [consumeWords, if_pos h]
        simp only [List.cons_append]
        rw [h2]
    · exact ⟨[], by simp [consumeWords, if_neg h], by simp [consumeWords, if_neg h]⟩

theorem matchSegments_consumed (segs : List SegmentOut) (ws : List ParagraphWord) :
    ∃ consumed : List (List ParagraphWord),
      consumed.length = segs.length ∧
      consumed.flatten = ws.take consumed.flatten.length ∧
      matchSegments segs ws =
        (segs.zip consumed).filterMap (fun sc => segmentFromWords sc.1 sc.2) := by
  induction segs generalizing ws with
  | nil => exact ⟨[], rfl, by simp, rfl⟩
  | cons seg rest ih =>
    obtain ⟨taken, h1, h2⟩ :=
      consumeWords_split (normalizeText seg.text).length [] ws
    rw [List.nil_append] at h1
    obtain ⟨consumed', hlen, hflat, hms⟩ :=
      ih (consumeWords (normalizeText seg.text).length [] ws).2
    refine ⟨taken :: consumed', by simp [hlen], ?_, ?_⟩
    · rw [List.flatten_cons, List.length_append, ← h2, List.take_append, ← hflat]
    · rw [matchSegments, List.zip_cons_cons, List.filterMap_cons, ← h1]
      cases hseg : segmentFromWords seg (consumeWords (normalizeText seg.text).length [] ws).1 with
      | none => simpa [hseg] using hms
      | some out => simpa [hseg] using hms

/-- C10: when a split is applied, the produced segments' word lists are
consecutive contiguous slices of the original word sequence starting at
its first word (their concatenation is a prefix of the words, consumed
in order and without overlap); a segment for which no word was consumed
is omitted from the output (`segmentFromWords _ [] = none` inside the
`filterMap`), and the words beyond the consumed prefix appear in no
segment. -/
theorem word_reattribution_spec (para : ParagraphInput)
    (spk : Option SpeakerInfo) (conf : Confidence) (segs : List SegmentOut)
    (h : conf ≠ .low) :
    ∃ consumed : List (List ParagraphWord),
      consumed.length = segs.length ∧
      consumed.flatten = para.words.take consumed.flatten.length ∧
      resegmentParagraph para spk (.parsed true conf segs) =
        some (((segs.zip consumed).filterMap
          (fun sc => segmentFromWords sc.1 sc.2)).map
            (fun out => (out.1, some out.2))) := by
  obtain ⟨consumed, h1, h2, h3⟩ := matchSegments_consumed segs para.words
  refine ⟨consumed, h1, h2, ?_⟩
  rw [resegmentParagraph]
  simp only [Bool.not_true, Bool.false_eq_true, if_false, if_neg h, h3]

/-- Witness for C10: the fixture split consumes exactly the first word
for the single returned segment, leaving the second word in no
segment. -/
theorem word_reattribution_spec_witness :
    ∃ consumed : List (List ParagraphWord),
      consumed.length = [segHello].length ∧
      consumed.flatten = pHW.words.take consumed.flatten.length ∧
      resegmentParagraph pHW (some nullSpk) (.parsed true .high [segHello]) =
        some ((([segHello].zip consumed).filterMap
          (fun sc => segmentFromWords sc.1 sc.2)).map
            (fun out => (out.1, some out.2))) :=
  word_reattribution_spec pHW (some nullSpk) .high [segHello] (by decide)

theorem resegmentParagraph_isSome (p : ParagraphInput)
    (spk : Option SpeakerInfo) (resp : ResegResponse) (h : resp ≠ .failure) :
    resegmentParagraph p spk resp =
      some ((resegmentParagraph p spk resp).getD []) := by
  cases resp with
  | contentFilter => rfl
  | failure => exact absurd rfl h
  | parsed ss conf segs =>
    simp only [resegmentParagraph]
    split_ifs <;> rfl

theorem paraAt_of_lt (ps : List ParagraphInput) (i : Nat) (h : i < ps.length) :
    ps[i]? = some (paraAt ps i) := by
  rw [List.getElem?_eq_getElem h]
  rw [paraAt, List.getElem?_eq_getElem h]
  rfl

theorem collectReseg_eq (paragraphs : List ParagraphInput) (m0 : SpeakerMap)
    (rsp : Nat → ResegResponse) (idxs : List Nat)
    (h : ∀ i ∈ idxs, i < paragraphs.length ∧ rsp i ≠ .failure) :
    collectReseg paragraphs m0 rsp idxs =
      some (idxs.map (fun i => (i,
        (resegmentParagraph (paraAt paragraphs i) (mapGet m0 i) (rsp i)).getD []))) := by
  induction idxs with
  | nil => rfl
  | cons i rest ih =>
    obtain ⟨hlt, hne⟩ := h i (List.mem_cons_self i rest)
    obtain ⟨out, hout⟩ : ∃ out,
        resegmentParagraph (paraAt paragraphs i) (mapGet m0 i) (rsp i) = some out :=
      ⟨_, resegmentParagraph_isSome _ _ _ hne⟩
    have h1 : paragraphs[i]? = some (paraAt paragraphs i) :=
      paraAt_of_lt paragraphs i hlt
    have h3 := ih (fun k hk => h k (List.mem_cons_of_mem i hk))
    simp [collectReseg, h1, hout, h3]

theorem find?_resegResults (idxs : List Nat)
    (f : Nat → List (ParagraphInput × Option SpeakerInfo)) (i : Nat) :
    ((idxs.map (fun j => (j, f j))).find? (fun r => r.1 == i)) =
      (idxs.find? (fun j => j == i)).map (fun j => (j, f j)) := by
  induction idxs with
  | nil => rfl
  | cons j rest ih =>
    rw [List.map_cons, List.find?_cons, List.find?_cons]
    cases hb : (j == i) with
    | true => simp [hb]
    | false => simpa [hb] using ih

theorem find?_beq_self (idxs : List Nat) (i : Nat) :
    idxs.find? (fun j => j == i) = if i ∈ idxs then some i else none := by
  induction idxs with
  | nil => simp
  | cons j rest ih =>
    rw [List.find?_cons]
    cases hb : (j == i) with
    | true =>
      have : j = i := by simpa using hb
      subst this
      simp
    | false =>
      have hne : j ≠ i := by simpa using hb
      rw [ih]
      by_cases hmem : i ∈ rest
      · simp [hmem, hne]
      · simp [hmem, hne, Ne.symm hne]

theorem find?_index_of_mem_nodup (asg : List AssignedParagraph)
    (hnd : (asg.map (·.index)).Nodup) (a : AssignedParagraph) (ha : a ∈ asg) :
    asg.find? (fun b => b.index == a.index) = some a := by
  induction asg with
  | nil => cases ha
  | cons b rest ih =>
    rw [List.map_cons, List.nodup_cons] at hnd
    rw [List.find?_cons]
    rcases List.mem_cons.mp ha with rfl | hmem
    · simp
    · have hbne : b.index ≠ a.index := by
        intro he
        exact hnd.1 (he ▸ List.mem_map_of_mem (·.index) hmem)
      have : (b.index == a.index) = false := by simpa using hbne
      rw [this]
      exact ih hnd.2 hmem

/-- The rebuild loop, characterized: with a results list holding exactly
the flagged indices and an assignment response that enumerates the
paragraph positions in order, the rebuilt sequence is the in-order
concatenation of the per-paragraph contributions. -/
theorem rebuildLoop_pairs (results : List (Nat × List (ParagraphInput × Option SpeakerInfo)))
    (m0 : SpeakerMap) (flagged : List Nat)
    (fOut : Nat → List (ParagraphInput × Option SpeakerInfo))
    (rsp : Nat → ResegResponse)
    (hres : ∀ j, results.find? (fun r => r.1 == j) =
      if j ∈ flagged then some (j, fOut j) else none) :
    ∀ (j : Nat) (ps : List ParagraphInput) (asg : List AssignedParagraph),
      asg.map (·.index) = List.range' j ps.length →
      (∀ a ∈ asg, mapGet m0 a.index = some (assignedSpeaker a)) →
      (∀ a ∈ asg, a.index ∈ flagged ↔ a.has_multiple_speakers = true) →
      (∀ pa ∈ ps.zip asg, pa.2.has_multiple_speakers = true →
        fOut pa.2.index =
          (resegmentParagraph pa.1 (some (assignedSpeaker pa.2)) (rsp pa.2.index)).getD []) →
      rebuildLoop results m0 j ps = (ps.zip asg).flatMap (rebuildContribution rsp) := by
  intro j ps
  induction ps generalizing j with
  | nil =>
    intro asg hidx _ _ _
    have : asg = [] := by
      cases asg with
      | nil => rfl
      | cons a r => simp at hidx
    subst this
    rfl
  | cons p ps ih =>
    intro asg hidx hm0 hflag hout
    cases asg with
    | nil => simp at hidx
    | cons a rest =>
      rw [List.length_cons, List.range'_succ, List.map_cons, List.cons.injEq] at hidx
      obtain ⟨haj, hrest⟩ := hidx
      subst haj
      have htail : rebuildLoop results m0 (a.index + 1) ps =
          (ps.zip rest).flatMap (rebuildContribution rsp) := by
        refine ih (a.index + 1) rest (by rw [hrest]) ?_ ?_ ?_
        · exact fun b hb => hm0 b (List.mem_cons_of_mem a hb)
        · exact fun b hb => hflag b (List.mem_cons_of_mem a hb)
        · exact fun pb hpb => hout pb (List.mem_cons_of_mem (p, a) hpb)
      rw [List.zip_cons_cons, List.flatMap_cons, rebuildLoop, hres a.index, htail]
      have hflaga := hflag a (List.mem_cons_self a rest)
      by_cases hmem : a.index ∈ flagged
      · have hmul : a.has_multiple_speakers = true := hflaga.mp hmem
        have hfo := hout (p, a) (List.mem_cons_self (p, a) _) hmul
        simp only [if_pos hmem]
        rw [rebuildContribution, if_pos hmul, ← hfo]
      · have hmul : ¬ (a.has_multiple_speakers = true) :=
          fun hb => hmem (hflaga.mpr hb)
        simp only [if_neg hmem]
        rw [rebuildContribution, if_neg hmul, hm0 a (List.mem_cons_self a rest)]

theorem mapSet_append (m : SpeakerMap) (k : Nat) (v : Option SpeakerInfo)
    (h : ∀ kv ∈ m, kv.1 < k) : mapSet m k v = m ++ [(k, v)] := by
  induction m with
  | nil => rfl
  | cons kv rest ih =>
    obtain ⟨k', v'⟩ := kv
    have hk' : k' < k := h (k', v') (List.mem_cons_self _ _)
    rw [mapSet, if_neg (by omega), if_neg (by omega),
      ih (fun x hx => h x (List.mem_cons_of_mem _ hx))]
    rfl

theorem buildInitialMapping_go (asg : List AssignedParagraph) :
    ∀ (j : Nat) (pre : SpeakerMap), (∀ kv ∈ pre, kv.1 < j) →
      asg.map (·.index) = List.range' j asg.length →
      asg.foldl (fun m p => mapSet m p.index (some (assignedSpeaker p))) pre =
        pre ++ denseMapFrom j (asg.map (fun a => some (assignedSpeaker a))) := by
  induction asg with
  | nil =>
    intro j pre _ _
    simp [denseMapFrom]
  | cons a rest ih =>
    intro j pre hpre hidx
    rw [List.length_cons, List.range'_succ, List.map_cons, List.cons.injEq] at hidx
    obtain ⟨haj, hrest⟩ := hidx
    subst haj
    rw [List.foldl_cons, mapSet_append pre a.index (some (assignedSpeaker a)) hpre,
      ih (a.index + 1) (pre ++ [(a.index, some (assignedSpeaker a))])
        (by
          intro kv hkv
          rcases List.mem_append.mp hkv with hin | hin
          · have := hpre kv hin
            omega
          · simp only [List.mem_singleton] at hin
            subst hin
            show a.index < a.index + 1
            omega) hrest]
    rw [List.map_cons, denseMapFrom, List.append_assoc]
    rfl

theorem buildInitialMapping_dense (asg : List AssignedParagraph) (n : Nat)
    (hidx : asg.map (·.index) = List.range n) :
    buildInitialMapping asg =
      denseMapFrom 0 (asg.map (fun a => some (assignedSpeaker a))) := by
  have hlen : asg.length = n := by
    have := congrArg List.length hidx
    simpa using this
  have := buildInitialMapping_go asg 0 [] (by simp)
    (by rw [hidx, hlen, List.range_eq_range'])
  simpa [buildInitialMapping] using this

theorem nodup_index_inj (asg : List AssignedParagraph)
    (hnd : (asg.map (·.index)).Nodup) (a b : AssignedParagraph)
    (ha : a ∈ asg) (hb : b ∈ asg) (hi : a.index = b.index) : a = b := by
  induction asg with
  | nil => cases ha
  | cons c rest ih =>
    rw [List.map_cons, List.nodup_cons] at hnd
    rcases List.mem_cons.mp ha with rfl | ha' <;>
      rcases List.mem_cons.mp hb with rfl | hb'
    · rfl
    · exact absurd (hi ▸ List.mem_map_of_mem (·.index) hb') hnd.1
    · exact absurd (hi ▸ List.mem_map_of_mem (·.index) ha') hnd.1
    · exact ih hnd.2 ha' hb'

theorem mapGet_buildInitialMapping_of_mem (asg : List AssignedParagraph)
    (hnd : (asg.map (·.index)).Nodup) (a : AssignedParagraph) (ha : a ∈ asg) :
    mapGet (buildInitialMapping asg) a.index = some (assignedSpeaker a) := by
  rw [mapGet_buildInitialMapping]
  have hnd' : (asg.reverse.map (·.index)).Nodup := by
    rw [List.map_reverse]
    exact List.nodup_reverse.mpr hnd
  rw [find?_index_of_mem_nodup asg.reverse hnd' a (List.mem_reverse.mpr ha)]
  rfl

theorem mem_toResegIndices (asg : List AssignedParagraph)
    (hnd : (asg.map (·.index)).Nodup) (a : AssignedParagraph) (ha : a ∈ asg) :
    a.index ∈ toResegIndices asg ↔ a.has_multiple_speakers = true := by
  constructor
  · intro hmem
    obtain ⟨b, hbf, hbi⟩ := List.mem_map.mp hmem
    have hbmem : b ∈ asg := List.mem_of_mem_filter hbf
    have hbmul : b.has_multiple_speakers = true := (List.mem_filter.mp hbf).2
    have : b = a := nodup_index_inj asg hnd b a hbmem ha hbi
    exact this ▸ hbmul
  · intro hmul
    exact List.mem_map_of_mem (·.index) (List.mem_filter.mpr ⟨ha, hmul⟩)

theorem zip_mem_facts (ps : List ParagraphInput) (asg : List AssignedParagraph)
    (hidx : asg.map (·.index) = List.range ps.length) :
    ∀ pa ∈ ps.zip asg, paraAt ps pa.2.index = pa.1 ∧ pa.2.index < ps.length := by
  intro pa hpa
  obtain ⟨k, hk, hpk⟩ := List.mem_iff_getElem.mp hpa
  have hlen : asg.length = ps.length := by
    have := congrArg List.length hidx
    simpa using this
  have hk1 : k < ps.length := by
    rw [List.length_zip] at hk
    omega
  have hk2 : k < asg.length := by
    rw [List.length_zip] at hk
    omega
  have hpa' : pa = (ps[k], asg[k]) := by
    rw [← hpk, List.getElem_zip]
  have hidxk : pa.2.index = k := by
    rw [hpa']
    have hk3 : k < (asg.map (fun x => x.index)).length := by simpa using hk2
    have h3 : (asg.map (fun x => x.index)).get ⟨k, hk3⟩ = k := by
      simp [hidx]
    simpa using h3
  refine ⟨?_, hidxk ▸ hk1⟩
  rw [hidxk, hpa', paraAt, List.getElem?_eq_getElem hk1]
  rfl

theorem flatMap_eq_map_of_singleton (l : List (ParagraphInput × AssignedParagraph))
    (f : ParagraphInput × AssignedParagraph → List (ParagraphInput × Option SpeakerInfo))
    (g : ParagraphInput × AssignedParagraph → ParagraphInput × Option SpeakerInfo)
    (h : ∀ x ∈ l, f x = [g x]) : l.flatMap f = l.map g := by
  induction l with
  | nil => rfl
  | cons x rest ih =>
    rw [List.flatMap_cons, List.map_cons, h x (List.mem_cons_self _ _),
      ih (fun y hy => h y (List.mem_cons_of_mem x hy))]
    rfl

/-- The resegmentation stage, characterized as the in-order
concatenation of per-paragraph contributions. -/
theorem resegmentStage_pairs (paragraphs : List ParagraphInput)
    (asg : List AssignedParagraph) (rsp : Nat → ResegResponse)
    (hidx : asg.map (·.index) = List.range paragraphs.length)
    (hok : ∀ i ∈ toResegIndices asg, rsp i ≠ .failure) :
    resegmentStage paragraphs (buildInitialMapping asg) (toResegIndices asg) rsp =
      some (((paragraphs.zip asg).flatMap (rebuildContribution rsp)).map (·.1),
        toSpeakerMap ((paragraphs.zip asg).flatMap (rebuildContribution rsp))) := by
  have hnd : (asg.map (·.index)).Nodup := by
    rw [hidx]
    exact List.nodup_range _
  have hlen : asg.length = paragraphs.length := by
    have := congrArg List.length hidx
    simpa using this
  by_cases hempty : (toResegIndices asg).isEmpty
  · rw [resegmentStage, if_pos hempty]
    have hnil : toResegIndices asg = [] := List.isEmpty_iff.mp hempty
    have hnoflag : ∀ a ∈ asg, ¬ (a.has_multiple_speakers = true) := by
      intro a ha hmul
      have := (mem_toResegIndices asg hnd a ha).mpr hmul
      rw [hnil] at this
      cases this
    have hpairs : (paragraphs.zip asg).flatMap (rebuildContribution rsp) =
        (paragraphs.zip asg).map (fun pa => (pa.1, some (assignedSpeaker pa.2))) := by
      refine flatMap_eq_map_of_singleton _ _ _ ?_
      intro pa hpa
      rw [rebuildContribution,
        if_neg (hnoflag pa.2 (List.of_mem_zip hpa).2)]
    rw [hpairs]
    have hfst : ((paragraphs.zip asg).map
        (fun pa => (pa.1, some (assignedSpeaker pa.2)))).map (·.1) = paragraphs := by
      have h1 : ((paragraphs.zip asg).map
          (fun pa => (pa.1, some (assignedSpeaker pa.2)))).map (·.1) =
          (paragraphs.zip asg).map Prod.fst := by
        rw [List.map_map]
        rfl
      rw [h1]
      exact List.map_fst_zip paragraphs asg (by omega)
    have hsnd : toSpeakerMap ((paragraphs.zip asg).map
        (fun pa => (pa.1, some (assignedSpeaker pa.2)))) =
        denseMapFrom 0 (asg.map (fun a => some (assignedSpeaker a))) := by
      rw [toSpeakerMap, List.map_map]
      have h2 : ((paragraphs.zip asg).map
          ((fun (x : ParagraphInput × Option SpeakerInfo) => x.2) ∘
            (fun pa => (pa.1, some (assignedSpeaker pa.2))))) =
          ((paragraphs.zip asg).map Prod.snd).map
            (fun a => some (assignedSpeaker a)) := by
        rw [List.map_map]
        rfl
      rw [h2, List.map_snd_zip paragraphs asg (by omega)]
    rw [hfst, hsnd, buildInitialMapping_dense asg paragraphs.length hidx]
  · rw [resegmentStage, if_neg hempty]
    have hrange : ∀ i ∈ toResegIndices asg, i < paragraphs.length ∧ rsp i ≠ .failure := by
      intro i hi
      refine ⟨?_, hok i hi⟩
      obtain ⟨b, hbf, hbi⟩ := List.mem_map.mp hi
      have : i ∈ asg.map (·.index) :=
        hbi ▸ List.mem_map_of_mem (·.index) (List.mem_of_mem_filter hbf)
      rw [hidx] at this
      exact List.mem_range.mp this
    have hcr := collectReseg_eq paragraphs (buildInitialMapping asg) rsp
      (toResegIndices asg) hrange
    have hres : ∀ j, (((toResegIndices asg).map (fun i => (i,
        (resegmentParagraph (paraAt paragraphs i)
          (mapGet (buildInitialMapping asg) i) (rsp i)).getD []))).find?
            (fun r => r.1 == j)) =
        if j ∈ toResegIndices asg then some (j,
          (resegmentParagraph (paraAt paragraphs j)
            (mapGet (buildInitialMapping asg) j) (rsp j)).getD []) else none := by
      intro j
      rw [find?_resegResults (toResegIndices asg)
        (fun i => (resegmentParagraph (paraAt paragraphs i)
          (mapGet (buildInitialMapping asg) i) (rsp i)).getD []) j,
        find?_beq_self]
      by_cases hj : j ∈ toResegIndices asg
      · rw [if_pos hj, if_pos hj]
        rfl
      · rw [if_neg hj, if_neg hj]
        rfl
    have hrb := rebuildLoop_pairs
      ((toResegIndices asg).map (fun i => (i,
        (resegmentParagraph (paraAt paragraphs i)
          (mapGet (buildInitialMapping asg) i) (rsp i)).getD [])))
      (buildInitialMapping asg) (toResegIndices asg)
      (fun i => (resegmentParagraph (paraAt paragraphs i)
        (mapGet (buildInitialMapping asg) i) (rsp i)).getD [])
      rsp hres 0 paragraphs asg
      (by rw [hidx, List.range_eq_range'])
      (fun a ha => mapGet_buildInitialMapping_of_mem asg hnd a ha)
      (fun a ha => mem_toResegIndices asg hnd a ha)
      (by
        intro pa hpa hmul
        have hfacts := zip_mem_facts paragraphs asg hidx pa hpa
        have hmem : pa.2 ∈ asg := (List.of_mem_zip hpa).2
        show (resegmentParagraph (paraAt paragraphs pa.2.index)
            (mapGet (buildInitialMapping asg) pa.2.index) (rsp pa.2.index)).getD [] =
          (resegmentParagraph pa.1 (some (assignedSpeaker pa.2)) (rsp pa.2.index)).getD []
        rw [hfacts.1, mapGet_buildInitialMapping_of_mem asg hnd pa.2 hmem])
    simp only [hcr, hrb]

/-- C5 (amended): the rebuilt transcript is assembled deterministically
in original paragraph order — every unflagged paragraph is kept
unchanged in place with its assigned speaker, and each flagged paragraph
is replaced by exactly the 0..N segments its resegmentation produced
(N = 1 when the paragraph was kept unsplit; N = 0 is possible, when the
completion returned an applied split whose segments consume no words or
an empty segment list, in which case the flagged paragraph vanishes). -/
theorem resegment_reassembly (paragraphs : List ParagraphInput)
    (asg : List AssignedParagraph) (rsp : Nat → ResegResponse)
    (hidx : asg.map (·.index) = List.range paragraphs.length)
    (hok : ∀ i ∈ toResegIndices asg, rsp i ≠ .failure) :
    resegmentStage paragraphs (buildInitialMapping asg) (toResegIndices asg) rsp =
      some (((paragraphs.zip asg).flatMap (rebuildContribution rsp)).map (·.1),
        toSpeakerMap ((paragraphs.zip asg).flatMap (rebuildContribution rsp))) :=
  resegmentStage_pairs paragraphs asg rsp hidx hok

/-- Witness for C5 (amended): on the fixture transcript with one flagged
paragraph whose split is applied, the stage returns exactly the
per-paragraph contributions reassembled in order. -/
theorem resegment_reassembly_witness :
    resegmentStage [pHW] (buildInitialMapping [asgFlag]) (toResegIndices [asgFlag])
      (fun _ => .parsed true .high [segHello]) =
      some ((([pHW].zip [asgFlag]).flatMap
          (rebuildContribution (fun _ => .parsed true .high [segHello]))).map (·.1),
        toSpeakerMap (([pHW].zip [asgFlag]).flatMap
          (rebuildContribution (fun _ => .parsed true .high [segHello])))) :=
  resegment_reassembly [pHW] [asgFlag] (fun _ => .parsed true .high [segHello])
    (by decide) (by decide)

/-- Counterexample for C5 as stated: a flagged paragraph whose applied
split returned an empty segment list contributes zero segments — it
vanishes from the rebuilt transcript (the run completes with an empty
statement list), contradicting "every flagged paragraph contributes at
least one segment, regardless of what the completion service
returned". -/
theorem flagged_paragraph_can_vanish :
    identifySpeakersCore [pHW] (some [asgFlag])
      (fun _ => ResegResponse.parsed true .high []) = some ([], []) := by
  decide

theorem speakersEqualJs_some (a b : SpeakerInfo) :
    speakersEqualJs (some a) (some b) = some (speakersEqual a b) := rfl

theorem joinSep_para_chain (s t : String) (r : List String) :
    joinSep "\n\n" ((s ++ "\n\n" ++ t) :: r) = s ++ "\n\n" ++ joinSep "\n\n" (t :: r) := by
  cases r with
  | nil => rfl
  | cons u r' =>
    show (s ++ "\n\n" ++ t) ++ "\n\n" ++ joinSep "\n\n" (u :: r') =
      s ++ "\n\n" ++ (t ++ "\n\n" ++ joinSep "\n\n" (u :: r'))
    simp [String.append_assoc]

theorem foldl_merge_words (l : List ParagraphInput) :
    ∀ a : ParagraphInput, (l.foldl mergeParagraphs a).words =
      a.words ++ (l.map (·.words)).flatten := by
  induction l with
  | nil => intro a; simp
  | cons b l' ih =>
    intro a
    rw [List.foldl_cons, ih (mergeParagraphs a b)]
    simp [mergeParagraphs]

theorem foldl_merge_text (l : List ParagraphInput) :
    ∀ a : ParagraphInput, (l.foldl mergeParagraphs a).text =
      joinSep "\n\n" (a.text :: l.map (·.text)) := by
  induction l with
  | nil => intro a; rfl
  | cons b l' ih =>
    intro a
    rw [List.foldl_cons, ih (mergeParagraphs a b), List.map_cons]
    exact joinSep_para_chain a.text b.text (l'.map (·.text))

theorem foldl_merge_start (l : List ParagraphInput) :
    ∀ a : ParagraphInput, (l.foldl mergeParagraphs a).start = a.start := by
  induction l with
  | nil => intro a; rfl
  | cons b l' ih =>
    intro a
    rw [List.foldl_cons, ih (mergeParagraphs a b)]
    rfl

theorem foldl_merge_stop (l : List ParagraphInput) :
    ∀ a : ParagraphInput, (l.foldl mergeParagraphs a).stop = (l.getLastD a).stop := by
  induction l with
  | nil => intro a; rfl
  | cons b l' ih =>
    intro a
    rw [List.foldl_cons, ih (mergeParagraphs a b), List.getLastD_cons]
    cases l' with
    | nil => rfl
    | cons c l'' => rw [List.getLastD_cons, List.getLastD_cons]

theorem runPara_snoc (first y : ParagraphInput × SpeakerInfo)
    (accRev : List (ParagraphInput × SpeakerInfo)) :
    runPara (first :: (y :: accRev).reverse) =
      mergeParagraphs (runPara (first :: accRev.reverse)) y.1 := by
  rw [show (y :: accRev).reverse = accRev.reverse ++ [y] from List.reverse_cons y accRev]
  rw [runPara, runPara, List.map_append, List.foldl_append]
  rfl

theorem groupLoop_chunkGo (m : SpeakerMap) :
    ∀ (rest : List (ParagraphInput × SpeakerInfo)) (i : Nat)
      (first : ParagraphInput × SpeakerInfo)
      (accRev : List (ParagraphInput × SpeakerInfo)),
      mapMatches m i (rest.map (·.2)) →
      groupLoop m (runPara (first :: accRev.reverse)) (some first.2) i
        (rest.map (·.1)) =
        some ((chunkGo first accRev rest).map runStatement) := by
  intro rest
  induction rest with
  | nil =>
    intro i first accRev _
    rfl
  | cons y ys ih =>
    intro i first accRev hm
    obtain ⟨hget, hrest⟩ := hm
    rw [List.map_cons, groupLoop, hget, speakersEqualJs_some]
    cases hsp : speakersEqual first.2 y.2 with
    | true =>
      rw [chunkGo, if_pos hsp]
      have hIH := ih (i + 1) first (y :: accRev) hrest
      rw [runPara_snoc] at hIH
      exact hIH
    | false =>
      rw [chunkGo, if_neg (by rw [hsp]; exact Bool.false_ne_true)]
      have hIH : groupLoop m y.1 (some y.2) (i + 1) (ys.map (·.1)) =
          some ((chunkGo y [] ys).map runStatement) := ih (i + 1) y [] hrest
      show (groupLoop m y.1 (some y.2) (i + 1) (ys.map (·.1))).map
          (fun r => (runPara (first :: accRev.reverse), some first.2) :: r) =
        some (((first :: accRev.reverse) :: chunkGo y [] ys).map runStatement)
      rw [hIH]
      rfl

theorem chunkGo_flatten :
    ∀ (rest : List (ParagraphInput × SpeakerInfo)) (first accRev),
      (chunkGo first accRev rest).flatten = (first :: accRev.reverse) ++ rest := by
  intro rest
  induction rest with
  | nil =>
    intro first accRev
    simp [chunkGo]
  | cons y ys ih =>
    intro first accRev
    rw [chunkGo]
    by_cases hsp : speakersEqual first.2 y.2 = true
    · rw [if_pos hsp, ih]
      simp
    · rw [if_neg hsp, List.flatten_cons, ih]
      simp

theorem chunkGo_head :
    ∀ (rest : List (ParagraphInput × SpeakerInfo)) (first accRev), ∃ c cs,
      chunkGo first accRev rest = (first :: c) :: cs := by
  intro rest
  induction rest with
  | nil =>
    intro first accRev
    exact ⟨accRev.reverse, [], rfl⟩
  | cons y ys ih =>
    intro first accRev
    rw [chunkGo]
    by_cases hsp : speakersEqual first.2 y.2 = true
    · rw [if_pos hsp]
      exact ih first (y :: accRev)
    · rw [if_neg hsp]
      exact ⟨accRev.reverse, chunkGo y [] ys, rfl⟩

theorem chunkGo_run_equal :
    ∀ (rest : List (ParagraphInput × SpeakerInfo)) (first accRev),
      (∀ x ∈ accRev, speakersEqual first.2 x.2 = true) →
      ∀ run ∈ chunkGo first accRev rest, ∃ x t, run = x :: t ∧
        ∀ y ∈ run, speakersEqual x.2 y.2 = true := by
  intro rest
  induction rest with
  | nil =>
    intro first accRev hacc run hrun
    rw [chunkGo] at hrun
    simp only [List.mem_singleton] at hrun
    subst hrun
    refine ⟨first, accRev.reverse, rfl, ?_⟩
    intro y hy
    rcases List.mem_cons.mp hy with rfl | hy'
    · exact speakersEqual_refl _
    · exact hacc y (List.mem_reverse.mp hy')
  | cons y ys ih =>
    intro first accRev hacc run hrun
    rw [chunkGo] at hrun
    by_cases hsp : speakersEqual first.2 y.2 = true
    · rw [if_pos hsp] at hrun
      refine ih first (y :: accRev) ?_ run hrun
      intro x hx
      rcases List.mem_cons.mp hx with rfl | hx'
      · exact hsp
      · exact hacc x hx'
    · rw [if_neg hsp] at hrun
      rcases List.mem_cons.mp hrun with rfl | hrun'
      · refine ⟨first, accRev.reverse, rfl, ?_⟩
        intro z hz
        rcases List.mem_cons.mp hz with rfl | hz'
        · exact speakersEqual_refl _
        · exact hacc z (List.mem_reverse.mp hz')
      · exact ih y [] (by intro x hx; cases hx) run hrun'

theorem chunkGo_chain :
    ∀ (rest : List (ParagraphInput × SpeakerInfo)) (first accRev),
      List.Chain' (fun r1 r2 => ∀ x ∈ r1.head?, ∀ y ∈ r2.head?,
        speakersEqual x.2 y.2 = false) (chunkGo first accRev rest) := by
  intro rest
  induction rest with
  | nil =>
    intro first accRev
    exact List.chain'_singleton _
  | cons y ys ih =>
    intro first accRev
    rw [chunkGo]
    by_cases hsp : speakersEqual first.2 y.2 = true
    · rw [if_pos hsp]
      exact ih first (y :: accRev)
    · rw [if_neg hsp]
      rw [List.chain'_cons']
      refine ⟨?_, ih y []⟩
      intro r2 hr2
      obtain ⟨c, cs, hc⟩ := chunkGo_head ys y []
      rw [hc] at hr2
      simp only [List.head?_cons, Option.mem_def, Option.some.injEq] at hr2
      subst hr2
      intro x hx z hz
      simp only [List.head?_cons, Option.mem_def, Option.some.injEq] at hx hz
      subst hx
      subst hz
      simpa using hsp

theorem mapMatches_of_pointwise (m : SpeakerMap) :
    ∀ (l : List SpeakerInfo) (i : Nat),
      (∀ k (h : k < l.length), mapGet m (i + k) = some l[k]) →
      mapMatches m i l := by
  intro l
  induction l with
  | nil =>
    intro i _
    trivial
  | cons s rest ih =>
    intro i h
    refine ⟨?_, ?_⟩
    · have h0 := h 0 (by simp)
      simpa using h0
    · refine ih (i + 1) ?_
      intro k hk
      have hk1 : k + 1 < (s :: rest).length := by
        simp only [List.length_cons]
        omega
      have hx := h (k + 1) hk1
      have harith : i + (k + 1) = i + 1 + k := by omega
      rw [harith] at hx
      simpa using hx

theorem mapMatches_dense (spks : List SpeakerInfo) :
    mapMatches (denseMapFrom 0 (spks.map some)) 0 spks := by
  refine mapMatches_of_pointwise _ spks 0 ?_
  intro k hk
  have hd := mapGet_denseMapFrom 0 k (spks.map some)
  rw [hd]
  simp [List.getElem?_map, List.getElem?_eq_getElem hk]

theorem groupParagraphs_chunk (ps : List ParagraphInput) (spks : List SpeakerInfo)
    (m : SpeakerMap) (hlen : ps.length = spks.length)
    (hm : mapMatches m 0 spks) :
    groupParagraphs ps m = some ((chunkBySpeaker (ps.zip spks)).map runStatement) := by
  cases ps with
  | nil =>
    cases spks with
    | nil => rfl
    | cons s spks' => simp at hlen
  | cons p ps' =>
    cases spks with
    | nil => simp at hlen
    | cons s spks' =>
      obtain ⟨hget, hrest⟩ := hm
      have hlen' : ps'.length = spks'.length := by simpa using hlen
      have hfst : (ps'.zip spks').map (fun x => x.1) = ps' :=
        List.map_fst_zip ps' spks' (le_of_eq hlen')
      have hsnd : (ps'.zip spks').map (fun x => x.2) = spks' :=
        List.map_snd_zip ps' spks' (ge_of_eq hlen')
      have hmm : mapMatches m 1 ((ps'.zip spks').map (fun x => x.2)) := by
        rw [hsnd]
        exact hrest
      have hbr := groupLoop_chunkGo m (ps'.zip spks') 1 (p, s) [] hmm
      rw [hfst] at hbr
      rw [groupParagraphs, hget]
      exact hbr

theorem getLastD_map_fst (t : List (ParagraphInput × SpeakerInfo)) :
    ∀ x : ParagraphInput × SpeakerInfo,
      (t.map (·.1)).getLastD x.1 = (t.getLastD x).1 := by
  induction t with
  | nil => intro x; rfl
  | cons c t' ih =>
    intro x
    rw [List.map_cons, List.getLastD_cons, List.getLastD_cons]
    exact ih c

/-- C6: on a transcript whose mapping holds the given speakers densely,
the grouping stage succeeds and returns exactly one Statement per
maximal run of consecutive equal attribution tuples: the runs partition
the input in order, every run's members share its first member's tuple
(merge happens if and only if the tuples are exactly equal, the all-null
tuple included), no two adjacent output Statements carry equal tuples,
and each Statement's text is the blank-line-joined concatenation and its
words the concatenation of its members' in order, with start from the
first member and end from the last. -/
theorem grouping_spec (ps : List ParagraphInput) (spks : List SpeakerInfo)
    (hlen : ps.length = spks.length) :
    groupParagraphs ps (denseMapFrom 0 (spks.map some)) =
      some ((chunkBySpeaker (ps.zip spks)).map runStatement) ∧
    (chunkBySpeaker (ps.zip spks)).flatten = ps.zip spks ∧
    (∀ run ∈ chunkBySpeaker (ps.zip spks), ∃ x t, run = x :: t ∧
      ∀ y ∈ run, speakersEqual x.2 y.2 = true) ∧
    List.Chain' (fun a b => ∀ x ∈ a.2, ∀ y ∈ b.2, speakersEqual x y = false)
      ((chunkBySpeaker (ps.zip spks)).map runStatement) ∧
    (∀ run x t, run ∈ chunkBySpeaker (ps.zip spks) → run = x :: t →
      runStatement run = (⟨joinSep "\n\n" (run.map (·.1.text)), x.1.start,
        (t.getLastD x).1.stop, (run.map (·.1.words)).flatten⟩, some x.2)) := by
  refine ⟨groupParagraphs_chunk ps spks _ hlen (mapMatches_dense spks), ?_, ?_, ?_, ?_⟩
  · cases hz : ps.zip spks with
    | nil => rfl
    | cons x xs =>
      rw [chunkBySpeaker, chunkGo_flatten xs x []]
      simp
  · cases hz : ps.zip spks with
    | nil =>
      intro run hrun
      cases hrun
    | cons x xs =>
      rw [chunkBySpeaker]
      exact chunkGo_run_equal xs x [] (by intro z hz'; cases hz')
  · cases hz : ps.zip spks with
    | nil =>
      exact List.chain'_nil
    | cons x xs =>
      rw [chunkBySpeaker, List.chain'_map]
      refine (chunkGo_chain xs x []).imp ?_
      intro r1 r2 hr a ha b hb
      cases r1 with
      | nil => simp [runStatement] at ha
      | cons z1 t1 =>
        cases r2 with
        | nil => simp [runStatement] at hb
        | cons z2 t2 =>
          simp only [runStatement, Option.mem_def, Option.some.injEq] at ha hb
          subst ha
          subst hb
          exact hr z1 (by simp) z2 (by simp)
  · intro run x t hrun hrx
    subst hrx
    show (runPara (x :: t), some x.2) = _
    have heta : runPara (x :: t) = ⟨(runPara (x :: t)).text, (runPara (x :: t)).start,
        (runPara (x :: t)).stop, (runPara (x :: t)).words⟩ := rfl
    have h1 : (runPara (x :: t)).text = joinSep "\n\n" ((x :: t).map (·.1.text)) := by
      rw [runPara, foldl_merge_text, List.map_cons, List.map_map]
      rfl
    have h2 : (runPara (x :: t)).start = x.1.start := by
      rw [runPara, foldl_merge_start]
    have h3 : (runPara (x :: t)).stop = (t.getLastD x).1.stop := by
      rw [runPara, foldl_merge_stop, getLastD_map_fst]
    have h4 : (runPara (x :: t)).words = ((x :: t).map (·.1.words)).flatten := by
      rw [runPara, foldl_merge_words, List.map_cons, List.flatten_cons, List.map_map]
      rfl
    rw [heta, h1, h2, h3, h4]

/-- Witness for C6: two equally attributed fixture paragraphs merge into
the single expected Statement. -/
theorem grouping_spec_witness :
    groupParagraphs [pHW, pH] (denseMapFrom 0 ([nullSpk, nullSpk].map some)) =
      some [(⟨"Hello world.\n\nHello", 0, 5, [pW1, pW2, pW1]⟩, some nullSpk)] := by
  have h := (grouping_spec [pHW, pH] [nullSpk, nullSpk] rfl).1
  rw [h]
  decide

theorem normCatP_eq (l : List ParagraphInput) :
    normCatP l = concatStrings (l.map (fun p => normalizeText p.text)) := by
  induction l with
  | nil => rfl
  | cons p rest ih =>
    rw [normCatP, List.map_cons, concatStrings, normalizeText_append, List.map_cons,
      concatStrings, ← ih]
    rfl

theorem normCatP_append (a b : List ParagraphInput) :
    normCatP (a ++ b) = normCatP a ++ normCatP b := by
  rw [normCatP_eq, normCatP_eq, normCatP_eq, List.map_append, concatStrings_append]

theorem nWords_append (a b : List ParagraphWord) :
    nWords (a ++ b) = nWords a ++ nWords b := by
  rw [nWords, nWords, nWords, List.map_append, concatStrings_append]

theorem normalize_joinWordTexts (ws : List ParagraphWord) :
    normalizeText (joinWordTexts ws) = nWords ws := by
  rw [joinWordTexts, normalizeText_joinSep_space, nWords, List.map_map]
  rfl

theorem string_length_zero (s : String) (h : s.length = 0) : s = "" := by
  cases s with
  | mk data =>
    simp [String.length] at h
    simp [h]

theorem consumeWords_enough (L : Nat) (acc ws : List ParagraphWord) :
    L ≤ (normalizeText (joinWordTexts (consumeWords L acc ws).1)).length ∨
      (consumeWords L acc ws).2 = [] := by
  induction ws generalizing acc with
  | nil => exact Or.inr rfl
  | cons w rest ih =>
    by_cases h : (normalizeText (joinWordTexts acc)).length < L
    · rw [consumeWords, if_pos h]
      exact ih (acc ++ [w])
    · rw [consumeWords, if_neg h]
      refine Or.inl ?_
      show L ≤ (normalizeText (joinWordTexts acc)).length
      omega

theorem matchSegments_cons (seg : SegmentOut) (rest : List SegmentOut)
    (ws c r : List ParagraphWord)
    (hcw : consumeWords (normalizeText seg.text).length [] ws = (c, r)) :
    matchSegments (seg :: rest) ws =
      match segmentFromWords seg c with
      | none => matchSegments rest r
      | some out => out :: matchSegments rest r := by
  have heq : matchSegments (seg :: rest) ws =
      match segmentFromWords seg
        (consumeWords (normalizeText seg.text).length [] ws).1 with
      | none => matchSegments rest
          (consumeWords (normalizeText seg.text).length [] ws).2
      | some out => out :: matchSegments rest
          (consumeWords (normalizeText seg.text).length [] ws).2 := rfl
  rw [heq, hcw]

theorem segmentFromWords_text (seg : SegmentOut) (ws : List ParagraphWord)
    (out : ParagraphInput × SpeakerInfo) (h : segmentFromWords seg ws = some out) :
    normalizeText out.1.text = nWords ws := by
  cases ws with
  | nil => cases h
  | cons w c' =>
    rw [segmentFromWords] at h
    injection h with h
    rw [← h]
    show normalizeText (joinWordTexts (w :: c')) = nWords (w :: c')
    exact normalize_joinWordTexts _

theorem matchSegments_nText (segs : List SegmentOut) :
    ∀ ws : List ParagraphWord, ∃ m,
      concatStrings ((matchSegments segs ws).map (fun out => normalizeText out.1.text)) =
        nWords (ws.take m) ∧
      m ≤ ws.length ∧
      ((concatStrings (segs.map (fun s => normalizeText s.text))).length ≤
          (nWords (ws.take m)).length ∨ m = ws.length) := by
  induction segs with
  | nil =>
    intro ws
    exact ⟨0, rfl, by omega, Or.inl (by simp [concatStrings, nWords])⟩
  | cons seg rest ih =>
    intro ws
    obtain ⟨c, r, hcw⟩ : ∃ c r,
        consumeWords (normalizeText seg.text).length [] ws = (c, r) := ⟨_, _, rfl⟩
    have hsplit := consumeWords_split (normalizeText seg.text).length [] ws
    rw [hcw] at hsplit
    obtain ⟨taken, htk, hwr0⟩ := hsplit
    have htk' : c = taken := htk
    subst htk'
    have hwr : c ++ r = ws := hwr0
    have henough0 := consumeWords_enough (normalizeText seg.text).length [] ws
    rw [hcw] at henough0
    have henough : (normalizeText seg.text).length ≤
        (normalizeText (joinWordTexts c)).length ∨ r = [] := henough0
    obtain ⟨m', hc', hm', ht'⟩ := ih r
    have hlenws : ws.length = c.length + r.length := by
      rw [← hwr, List.length_append]
    have htake : ws.take (c.length + m') = c ++ r.take m' := by
      rw [← hwr, List.take_append]
    have hms := matchSegments_cons seg rest ws c r hcw
    refine ⟨c.length + m', ?_, by omega, ?_⟩
    · rw [htake, nWords_append]
      cases hc : c with
      | nil =>
        rw [hc] at hms
        rw [hms]
        show concatStrings ((matchSegments rest r).map
          (fun out => normalizeText out.1.text)) = nWords [] ++ nWords (r.take m')
        rw [hc']
        simp [nWords, concatStrings]
      | cons w c' =>
        obtain ⟨out, hov⟩ : ∃ out, segmentFromWords seg c = some out :=
          ⟨_, by rw [hc]; rfl⟩
        rw [hov] at hms
        rw [hms, List.map_cons, concatStrings, hc',
          segmentFromWords_text seg c out hov, hc]
    · rw [List.map_cons, concatStrings, String.length_append, htake, nWords_append,
        String.length_append]
      rcases henough with hLc | hrnil
      · rw [normalize_joinWordTexts] at hLc
        rcases ht' with hle | hall
        · exact Or.inl (by omega)
        · exact Or.inr (by omega)
      · refine Or.inr ?_
        have hr0 : r.length = 0 := by rw [hrnil]; rfl
        omega

theorem matchSegments_preserves (p : ParagraphInput) (segs : List SegmentOut)
    (htext : normalizeText p.text = normalizeText (joinWordTexts p.words))
    (hseg : normalizeText (joinSep " " (segs.map (·.text))) = normalizeText p.text) :
    concatStrings ((matchSegments segs p.words).map (fun out => normalizeText out.1.text)) =
      normalizeText p.text := by
  have hsegs : concatStrings (segs.map (fun s => normalizeText s.text)) =
      normalizeText p.text := by
    rw [← hseg, normalizeText_joinSep_space, List.map_map]
    rfl
  have hwords : nWords p.words = normalizeText p.text := by
    rw [← normalize_joinWordTexts, ← htext]
  obtain ⟨m, hconcat, hm, htot⟩ := matchSegments_nText segs p.words
  rcases htot with hle | hall
  · have hsplit : nWords p.words =
        nWords (p.words.take m) ++ nWords (p.words.drop m) := by
      rw [← nWords_append, List.take_append_drop]
    have hlen1 : (concatStrings (segs.map (fun s => normalizeText s.text))).length =
        (nWords p.words).length := by rw [hsegs, ← hwords]
    have hlen2 : (nWords p.words).length =
        (nWords (p.words.take m)).length + (nWords (p.words.drop m)).length := by
      rw [hsplit, String.length_append]
    have hdrop : (nWords (p.words.drop m)).length = 0 := by omega
    have hdrop' : nWords (p.words.drop m) = "" := string_length_zero _ hdrop
    rw [hconcat, ← hwords, hsplit, hdrop']
    simp
  · rw [hconcat, hall, List.take_length, hwords]

theorem normCatP_cons (p : ParagraphInput) (l : List ParagraphInput) :
    normCatP (p :: l) = normalizeText p.text ++ normCatP l := by
  rw [normCatP_eq, List.map_cons, concatStrings, ← normCatP_eq]

theorem normCatP_singleton (p : ParagraphInput) :
    normCatP [p] = normalizeText p.text := by
  rw [normCatP_cons]
  show normalizeText p.text ++ "" = normalizeText p.text
  simp

theorem contribution_nText (rsp : Nat → ResegResponse)
    (pa : ParagraphInput × AssignedParagraph)
    (htext : normalizeText pa.1.text = normalizeText (joinWordTexts pa.1.words))
    (hok : pa.2.has_multiple_speakers = true → rsp pa.2.index ≠ .failure)
    (hint : ∀ ss conf segs, rsp pa.2.index = .parsed ss conf segs → ss = true →
      conf ≠ .low →
      normalizeText (joinSep " " (segs.map (·.text))) = normalizeText pa.1.text) :
    normCatP ((rebuildContribution rsp pa).map (·.1)) = normalizeText pa.1.text := by
  rw [rebuildContribution]
  by_cases hmul : pa.2.has_multiple_speakers = true
  · rw [if_pos hmul]
    cases hr : rsp pa.2.index with
    | contentFilter =>
      show normCatP [pa.1] = _
      exact normCatP_singleton pa.1
    | failure => exact absurd hr (hok hmul)
    | parsed ss conf segs =>
      cases hss : ss with
      | false =>
        show normCatP [pa.1] = _
        exact normCatP_singleton pa.1
      | true =>
        by_cases hconf : conf = Confidence.low
        · subst hconf
          show normCatP [pa.1] = _
          exact normCatP_singleton pa.1
        · have hre : resegmentParagraph pa.1
              (some (assignedSpeaker pa.2)) (.parsed true conf segs) =
              some ((matchSegments segs pa.1.words).map
                (fun out => (out.1, some out.2))) := by
            rw [resegmentParagraph]
            simp only [Bool.not_true, Bool.false_eq_true, if_false, if_neg hconf]
          rw [hss] at hr
          rw [hre]
          show normCatP (((matchSegments segs pa.1.words).map
            (fun out => (out.1, some out.2))).map (·.1)) = _
          rw [List.map_map, normCatP_eq, List.map_map]
          have hms := matchSegments_preserves pa.1 segs htext
            (hint true conf segs hr rfl hconf)
          rw [← hms]
          rfl
  · rw [if_neg hmul]
    show normCatP [pa.1] = _
    exact normCatP_singleton pa.1

theorem segmentFromWords_flag (seg : SegmentOut) (ws : List ParagraphWord)
    (out : ParagraphInput × SpeakerInfo) (h : segmentFromWords seg ws = some out) :
    out.2.is_off_record = none := by
  cases ws with
  | nil => cases h
  | cons w c' =>
    rw [segmentFromWords] at h
    injection h with h
    rw [← h]

theorem matchSegments_flag (segs : List SegmentOut) :
    ∀ ws : List ParagraphWord, ∀ out ∈ matchSegments segs ws,
      out.2.is_off_record = none := by
  induction segs with
  | nil =>
    intro ws out hout
    cases hout
  | cons seg rest ih =>
    intro ws out hout
    obtain ⟨c, r, hcw⟩ : ∃ c r,
        consumeWords (normalizeText seg.text).length [] ws = (c, r) := ⟨_, _, rfl⟩
    rw [matchSegments_cons seg rest ws c r hcw] at hout
    cases hsf : segmentFromWords seg c with
    | none =>
      rw [hsf] at hout
      exact ih r out hout
    | some out' =>
      rw [hsf] at hout
      rcases List.mem_cons.mp hout with rfl | hout'
      · exact segmentFromWords_flag seg c out hsf
      · exact ih r out hout'

theorem contribution_vals (rsp : Nat → ResegResponse)
    (pa : ParagraphInput × AssignedParagraph)
    (hoffr : pa.2.has_multiple_speakers = true → pa.2.is_off_record = false) :
    ∀ x ∈ rebuildContribution rsp pa, ∃ s, x.2 = some s ∧
      s.is_off_record ≠ some false ∧
      (s.is_off_record = some true ↔ pa.2.is_off_record = true) := by
  intro x hx
  rw [rebuildContribution] at hx
  by_cases hmul : pa.2.has_multiple_speakers = true
  · rw [if_pos hmul] at hx
    have hoff : pa.2.is_off_record = false := hoffr hmul
    cases hr : rsp pa.2.index with
    | contentFilter =>
      rw [hr] at hx
      simp only [resegmentParagraph, Option.getD_some, List.mem_singleton] at hx
      subst hx
      refine ⟨assignedSpeaker pa.2, rfl, ?_, ?_⟩ <;>
        simp [assignedSpeaker, hoff]
    | failure =>
      rw [hr] at hx
      simp only [resegmentParagraph, Option.getD_none] at hx
      cases hx
    | parsed ss conf segs =>
      rw [hr] at hx
      by_cases hkeep : ss = false ∨ conf = Confidence.low
      · rw [resegmentParagraph_conservative pa.1 _ ss conf segs hkeep] at hx
        simp only [Option.getD_some, List.mem_singleton] at hx
        subst hx
        refine ⟨assignedSpeaker pa.2, rfl, ?_, ?_⟩ <;>
          simp [assignedSpeaker, hoff]
      · push_neg at hkeep
        obtain ⟨hss, hconf⟩ := hkeep
        have hss' : ss = true := by
          cases ss
          · exact absurd rfl hss
          · rfl
        subst hss'
        have hre : resegmentParagraph pa.1
            (some (assignedSpeaker pa.2)) (.parsed true conf segs) =
            some ((matchSegments segs pa.1.words).map
              (fun out => (out.1, some out.2))) := by
          rw [resegmentParagraph]
          simp only [Bool.not_true, Bool.false_eq_true, if_false, if_neg hconf]
        rw [hre, Option.getD_some] at hx
        obtain ⟨out, hout, rfl⟩ := List.mem_map.mp hx
        refine ⟨out.2, rfl, ?_, ?_⟩ <;>
          rw [matchSegments_flag segs pa.1.words out hout] <;>
          simp [hoff]
  · rw [if_neg hmul] at hx
    simp only [List.mem_singleton] at hx
    subst hx
    refine ⟨assignedSpeaker pa.2, rfl, ?_, ?_⟩
    · cases hoff : pa.2.is_off_record <;> simp [assignedSpeaker, hoff]
    · cases hoff : pa.2.is_off_record <;> simp [assignedSpeaker, hoff]

theorem mapHolds_of_pointwise (m : SpeakerMap) :
    ∀ (l : List (Option SpeakerInfo)) (i : Nat),
      (∀ k (h : k < l.length), mapGet m (i + k) = l[k]) →
      mapHolds m i l := by
  intro l
  induction l with
  | nil =>
    intro i _
    trivial
  | cons v rest ih =>
    intro i h
    refine ⟨?_, ?_⟩
    · have h0 := h 0 (by simp)
      simpa using h0
    · refine ih (i + 1) ?_
      intro k hk
      have hk1 : k + 1 < (v :: rest).length := by
        simp only [List.length_cons]
        omega
      have hx := h (k + 1) hk1
      have harith : i + (k + 1) = i + 1 + k := by omega
      rw [harith] at hx
      simpa using hx

theorem mapHolds_dense (vs : List (Option SpeakerInfo)) :
    mapHolds (denseMapFrom 0 vs) 0 vs := by
  refine mapHolds_of_pointwise _ vs 0 ?_
  intro k hk
  have hd := mapGet_denseMapFrom 0 k vs
  rw [hd, List.getElem?_eq_getElem hk]
  rfl

theorem offRecordKeys_defined :
    ∀ (vs : List (Option SpeakerInfo)) (j : Nat),
      (∀ v ∈ vs, v ≠ none) →
      ∃ ks, offRecordKeys (denseMapFrom j vs) = some ks ∧
        (ks = [] ↔ ∀ v ∈ vs, ∀ s, v = some s → s.is_off_record ≠ some true) := by
  intro vs
  induction vs with
  | nil =>
    intro j _
    refine ⟨[], rfl, ?_⟩
    simp
  | cons v rest ih =>
    intro j hnn
    have hv := hnn v (List.mem_cons_self v rest)
    cases v with
    | none => exact absurd rfl hv
    | some s =>
      obtain ⟨ks', h', hiff'⟩ := ih (j + 1)
        (fun w hw => hnn w (List.mem_cons_of_mem _ hw))
      rw [denseMapFrom, offRecordKeys, h']
      by_cases hs : (s.is_off_record == some true) = true
      · refine ⟨j :: ks', by simp [hs], ?_⟩
        constructor
        · intro h
          cases h
        · intro hall
          have := hall (some s) (List.mem_cons_self _ _) s rfl
          exact absurd (by simpa using hs) this
      · refine ⟨ks', by simp [hs], ?_⟩
        rw [hiff']
        constructor
        · intro hall w hw s' hws'
          rcases List.mem_cons.mp hw with rfl | hw'
          · injection hws' with he
            subst he
            simpa using hs
          · exact hall w hw' s' hws'
        · intro hall w hw s' hws'
          exact hall w (List.mem_cons_of_mem _ hw) s' hws'

theorem filterOffRecordLoop_spec :
    ∀ (pairs : List (ParagraphInput × Option SpeakerInfo)) (j : Nat) (m : SpeakerMap),
      mapHolds m j (pairs.map (·.2)) →
      (∀ x ∈ pairs, x.2 ≠ none) →
      ∃ kept, filterOffRecordLoop m j (pairs.map (·.1)) = some kept ∧
        kept.map (fun x => (x.1, some x.2)) = offFilterO pairs := by
  intro pairs
  induction pairs with
  | nil =>
    intro j m _ _
    exact ⟨[], rfl, rfl⟩
  | cons x rest ih =>
    intro j m hm hnn
    obtain ⟨hget, hrest⟩ := hm
    have hx := hnn x (List.mem_cons_self x rest)
    obtain ⟨p, v⟩ := x
    cases v with
    | none => exact absurd rfl hx
    | some s =>
      obtain ⟨kept', h1, h2⟩ := ih (j + 1) m hrest
        (fun y hy => hnn y (List.mem_cons_of_mem _ hy))
      rw [List.map_cons, filterOffRecordLoop, hget]
      by_cases hs : (s.is_off_record == some true) = true
      · have hp : pairOff (p, some s) = true := by simpa [pairOff] using hs
        have hoc : offFilterO ((p, some s) :: rest) = offFilterO rest := by
          rw [offFilterO, List.filter_cons, hp]
          rfl
        refine ⟨kept', ?_, by rw [hoc]; exact h2⟩
        simp only [hs, if_true]
        exact h1
      · have hsf : (s.is_off_record == some true) = false := by simpa using hs
        have hp : pairOff (p, some s) = false := by simpa [pairOff] using hs
        have hoc : offFilterO ((p, some s) :: rest) =
            (p, some (offClear s)) :: offFilterO rest := by
          rw [offFilterO, List.filter_cons, hp]
          rfl
        refine ⟨(p, { s with is_off_record := none }) :: kept', ?_, ?_⟩
        · simp only [hsf, Bool.false_eq_true, if_false]
          rw [h1]
          rfl
        · rw [List.map_cons, h2, hoc]
          rfl

theorem offRecordStage_defined (pairs : List (ParagraphInput × Option SpeakerInfo))
    (hvals : ∀ x ∈ pairs, ∃ s, x.2 = some s ∧ s.is_off_record ≠ some false) :
    offRecordStage (pairs.map (·.1)) (toSpeakerMap pairs) =
      some ((offFilterO pairs).map (·.1), toSpeakerMap (offFilterO pairs)) := by
  have hnn : ∀ v ∈ pairs.map (·.2), v ≠ none := by
    intro v hv
    obtain ⟨x, hx, rfl⟩ := List.mem_map.mp hv
    obtain ⟨s, hs, _⟩ := hvals x hx
    rw [hs]
    simp
  obtain ⟨ks, hks0, hiff⟩ := offRecordKeys_defined (pairs.map (·.2)) 0 hnn
  have hks : offRecordKeys (toSpeakerMap pairs) = some ks := hks0
  have hred : offRecordStage (pairs.map (·.1)) (toSpeakerMap pairs) =
      (if ks.isEmpty then some (pairs.map (·.1), toSpeakerMap pairs)
       else
        match filterOffRecordLoop (toSpeakerMap pairs) 0 (pairs.map (·.1)) with
        | none => none
        | some kept =>
          some (kept.map (·.1), denseMapFrom 0 (kept.map (fun x => some x.2)))) := by
    rw [offRecordStage, hks]
  rw [hred]
  by_cases hemp : ks.isEmpty = true
  · rw [if_pos hemp]
    have hknil : ks = [] := List.isEmpty_iff.mp hemp
    have hflags : ∀ x ∈ pairs, pairOff x = false := by
      intro x hx
      obtain ⟨s, hs, _⟩ := hvals x hx
      have := (hiff.mp hknil) x.2 (List.mem_map_of_mem (·.2) hx) s hs
      simp only [pairOff, hs]
      simpa using this
    have hall : offFilterO pairs = pairs := by
      rw [offFilterO, List.filter_eq_self.mpr (by
        intro x hx
        rw [hflags x hx]
        rfl)]
      have : ∀ x ∈ pairs, (x.1, x.2.map offClear) = x := by
        intro x hx
        obtain ⟨s, hs, hnf⟩ := hvals x hx
        have hnt : s.is_off_record ≠ some true := by
          have := hflags x hx
          rw [pairOff, hs] at this
          simpa using this
        have hnone : s.is_off_record = none := by
          cases hso : s.is_off_record with
          | none => rfl
          | some b => cases b <;> simp_all
        have hclear : offClear s = s := by
          cases s
          simp_all [offClear]
        rw [hs]
        show (x.1, some (offClear s)) = x
        rw [hclear, ← hs]
      calc pairs.map (fun x => (x.1, x.2.map offClear)) = pairs.map id :=
            List.map_congr_left this
        _ = pairs := List.map_id pairs
    rw [hall]
  · rw [if_neg hemp]
    have hholds0 := mapHolds_dense (pairs.map (·.2))
    have hholds : mapHolds (toSpeakerMap pairs) 0 (pairs.map (·.2)) := hholds0
    have hnn0 : ∀ x ∈ pairs, x.2 ≠ none := by
      intro x hx
      obtain ⟨s, hs, _⟩ := hvals x hx
      rw [hs]
      simp
    obtain ⟨kept, hkeep0, hmapk⟩ := filterOffRecordLoop_spec pairs 0
      (toSpeakerMap pairs) hholds hnn0
    rw [hkeep0]
    have h1 : (offFilterO pairs).map (·.1) = kept.map (·.1) := by
      rw [← hmapk, List.map_map]
      rfl
    have h2 : toSpeakerMap (offFilterO pairs) =
        denseMapFrom 0 (kept.map (fun x => some x.2)) := by
      rw [toSpeakerMap, ← hmapk, List.map_map]
      rfl
    rw [h1, h2]

theorem offFilterO_append (a b : List (ParagraphInput × Option SpeakerInfo)) :
    offFilterO (a ++ b) = offFilterO a ++ offFilterO b := by
  rw [offFilterO, offFilterO, offFilterO, List.filter_append, List.map_append]

theorem offFilterO_flatMap (z : List (ParagraphInput × AssignedParagraph))
    (f : ParagraphInput × AssignedParagraph → List (ParagraphInput × Option SpeakerInfo)) :
    offFilterO (z.flatMap f) = z.flatMap (fun pa => offFilterO (f pa)) := by
  induction z with
  | nil => rfl
  | cons pa rest ih =>
    rw [List.flatMap_cons, List.flatMap_cons, offFilterO_append, ih]

theorem offFilterO_contribution_fst (rsp : Nat → ResegResponse)
    (pa : ParagraphInput × AssignedParagraph)
    (hoffr : pa.2.has_multiple_speakers = true → pa.2.is_off_record = false) :
    (offFilterO (rebuildContribution rsp pa)).map (·.1) =
      if pa.2.is_off_record = true then []
      else (rebuildContribution rsp pa).map (·.1) := by
  by_cases hoff : pa.2.is_off_record = true
  · rw [if_pos hoff]
    have hmul : pa.2.has_multiple_speakers = false := by
      cases hb : pa.2.has_multiple_speakers
      · rfl
      · rw [hoffr hb] at hoff
        cases hoff
    rw [rebuildContribution, if_neg (by rw [hmul]; exact Bool.false_ne_true)]
    have hp : pairOff (pa.1, some (assignedSpeaker pa.2)) = true := by
      simp [pairOff, assignedSpeaker, hoff]
    rw [offFilterO, List.filter_cons, hp]
    rfl
  · rw [if_neg hoff]
    have hflags : ∀ x ∈ rebuildContribution rsp pa, pairOff x = false := by
      intro x hx
      obtain ⟨s, hs, hnf, hiff⟩ := contribution_vals rsp pa hoffr x hx
      simp only [pairOff, hs]
      have hnt : s.is_off_record ≠ some true := by
        intro h
        exact hoff (hiff.mp h)
      simpa using hnt
    rw [offFilterO, List.filter_eq_self.mpr (by
      intro x hx
      rw [hflags x hx]
      rfl), List.map_map]
    rfl

theorem normCatP_flatMap (z : List (ParagraphInput × AssignedParagraph))
    (f : ParagraphInput × AssignedParagraph → List ParagraphInput) :
    normCatP (z.flatMap f) = concatStrings (z.map (fun pa => normCatP (f pa))) := by
  induction z with
  | nil => rfl
  | cons pa rest ih =>
    rw [List.flatMap_cons, normCatP_append, List.map_cons, concatStrings, ih]

theorem concatStrings_off_filter (z : List (ParagraphInput × AssignedParagraph))
    (c : ParagraphInput × AssignedParagraph → Bool)
    (f : ParagraphInput × AssignedParagraph → String) :
    concatStrings (z.map (fun pa => if c pa = true then "" else f pa)) =
      concatStrings ((z.filter (fun pa => !c pa)).map f) := by
  induction z with
  | nil => rfl
  | cons pa rest ih =>
    rw [List.map_cons, concatStrings]
    by_cases hc : c pa = true
    · have hnc : (!c pa) = false := by rw [hc]; rfl
      rw [if_pos hc]
      simp only [List.filter_cons, hnc, Bool.false_eq_true, if_false]
      rw [ih]
      exact String.empty_append _
    · have hcf : c pa = false := by
        cases hb : c pa
        · rfl
        · exact absurd hb hc
      have hnc : (!c pa) = true := by rw [hcf]; rfl
      rw [if_neg hc]
      simp only [List.filter_cons, hnc, if_true, List.map_cons, concatStrings]
      rw [ih]

theorem exists_dense_speakers (l : List (ParagraphInput × Option SpeakerInfo))
    (h : ∀ x ∈ l, ∃ s, x.2 = some s) :
    ∃ d : List (ParagraphInput × SpeakerInfo),
      l = d.map (fun x => (x.1, some x.2)) := by
  induction l with
  | nil => exact ⟨[], rfl⟩
  | cons x rest ih =>
    obtain ⟨s, hs⟩ := h x (List.mem_cons_self x rest)
    obtain ⟨d', hd'⟩ := ih (fun y hy => h y (List.mem_cons_of_mem x hy))
    refine ⟨(x.1, s) :: d', ?_⟩
    rw [List.map_cons, ← hd']
    have hx : (x.1, some s) = x := by rw [← hs]
    rw [hx]

theorem runStatement_text (y : ParagraphInput × SpeakerInfo)
    (t : List (ParagraphInput × SpeakerInfo)) :
    (runStatement (y :: t)).1.text = joinSep "\n\n" ((y :: t).map (·.1.text)) := by
  show (runPara (y :: t)).text = _
  rw [runPara, foldl_merge_text, List.map_cons, List.map_map]
  rfl

theorem runs_normCat (runs : List (List (ParagraphInput × SpeakerInfo)))
    (h : ∀ run ∈ runs, ∃ y t, run = y :: t) :
    normCatP ((runs.map runStatement).map (·.1)) =
      normCatP (runs.flatten.map (·.1)) := by
  induction runs with
  | nil => rfl
  | cons run rest ih =>
    obtain ⟨y, t, hyt⟩ := h run (List.mem_cons_self run rest)
    rw [List.map_cons, List.map_cons, normCatP_cons, List.flatten_cons,
      List.map_append, normCatP_append,
      ih (fun r hr => h r (List.mem_cons_of_mem run hr))]
    congr 1
    rw [hyt, runStatement_text, normalizeText_joinSep_para, normCatP_eq,
      List.map_map, List.map_map]
    rfl

theorem chunk_normCatP (z : List (ParagraphInput × SpeakerInfo)) :
    normCatP (((chunkBySpeaker z).map runStatement).map (·.1)) =
      normCatP (z.map (·.1)) := by
  cases z with
  | nil => rfl
  | cons x xs =>
    have hne : ∀ run ∈ chunkGo x [] xs, ∃ y t, run = y :: t := by
      intro run hrun
      obtain ⟨y, t, hyt, _⟩ :=
        chunkGo_run_equal xs x [] (by intro w hw; cases hw) run hrun
      exact ⟨y, t, hyt⟩
    rw [chunkBySpeaker, runs_normCat _ hne, chunkGo_flatten xs x []]
    rfl

theorem flatMap_congr_mem {α β : Type} (l : List α) (f g : α → List β)
    (h : ∀ x ∈ l, f x = g x) : l.flatMap f = l.flatMap g := by
  induction l with
  | nil => rfl
  | cons x rest ih =>
    rw [List.flatMap_cons, List.flatMap_cons, h x (List.mem_cons_self x rest),
      ih (fun y hy => h y (List.mem_cons_of_mem x hy))]

theorem contribution_filtered_nText (rsp : Nat → ResegResponse)
    (pa : ParagraphInput × AssignedParagraph)
    (htext : normalizeText pa.1.text = normalizeText (joinWordTexts pa.1.words))
    (hok : pa.2.has_multiple_speakers = true → rsp pa.2.index ≠ .failure)
    (hint : ∀ ss conf segs, rsp pa.2.index = .parsed ss conf segs → ss = true →
      conf ≠ .low →
      normalizeText (joinSep " " (segs.map (·.text))) = normalizeText pa.1.text)
    (hoffr : pa.2.has_multiple_speakers = true → pa.2.is_off_record = false) :
    normCatP ((offFilterO (rebuildContribution rsp pa)).map (·.1)) =
      (if pa.2.is_off_record = true then "" else normalizeText pa.1.text) := by
  rw [offFilterO_contribution_fst rsp pa hoffr]
  by_cases hoff : pa.2.is_off_record = true
  · rw [if_pos hoff, if_pos hoff]
    rfl
  · rw [if_neg hoff, if_neg hoff]
    exact contribution_nText rsp pa htext hok hint

theorem zip_normCat_assemble (rsp : Nat → ResegResponse)
    (z : List (ParagraphInput × AssignedParagraph))
    (hper : ∀ pa ∈ z,
      normCatP ((offFilterO (rebuildContribution rsp pa)).map (·.1)) =
        (if pa.2.is_off_record = true then "" else normalizeText pa.1.text)) :
    normCatP ((offFilterO (z.flatMap (rebuildContribution rsp))).map (·.1)) =
      normCatP ((z.filter (fun pa => !pa.2.is_off_record)).map (·.1)) := by
  induction z with
  | nil => rfl
  | cons pa rest ih =>
    rw [List.flatMap_cons, offFilterO_append, List.map_append, normCatP_append,
      hper pa (List.mem_cons_self pa rest),
      ih (fun y hy => hper y (List.mem_cons_of_mem pa hy))]
    by_cases hoff : pa.2.is_off_record = true
    · have hnc : (!pa.2.is_off_record) = false := by rw [hoff]; rfl
      rw [if_pos hoff]
      simp only [List.filter_cons, hnc, Bool.false_eq_true, if_false]
      exact String.empty_append _
    · have hcf : pa.2.is_off_record = false := by
        cases hb : pa.2.is_off_record
        · rfl
        · exact absurd hb hoff
      have hnc : (!pa.2.is_off_record) = true := by rw [hcf]; rfl
      rw [if_neg hoff]
      simp only [List.filter_cons, hnc, if_true, List.map_cons]
      rw [normCatP_cons]

theorem identifySpeakersCore_eq (paragraphs : List ParagraphInput)
    (asg : List AssignedParagraph) (rsp : Nat → ResegResponse)
    (m0 : SpeakerMap) (h1 : speakerAssignmentStage paragraphs (some asg) = some m0)
    (ps1 : List ParagraphInput) (m1 : SpeakerMap)
    (h2 : resegmentStage paragraphs m0 (toResegIndices asg) rsp = some (ps1, m1))
    (ps2 : List ParagraphInput) (m2 : SpeakerMap)
    (h3 : offRecordStage ps1 m1 = some (ps2, m2)) :
    identifySpeakersCore paragraphs (some asg) rsp =
      (if ps2.isEmpty then some (ps2, m2)
       else
         match groupParagraphs ps2 m2 with
         | none => none
         | some pairs => some (pairs.map (·.1), toSpeakerMap pairs)) := by
  rw [identifySpeakersCore, h1]
  show (match resegmentStage paragraphs m0 (toResegIndices asg) rsp with
    | none => none
    | some (ps1, m1) =>
      match offRecordStage ps1 m1 with
      | none => none
      | some (ps2, m2) =>
        if ps2.isEmpty then some (ps2, m2)
        else
          match groupParagraphs ps2 m2 with
          | none => none
          | some pairs =>
            some (pairs.map (fun x : ParagraphInput × Option SpeakerInfo => x.1),
              toSpeakerMap pairs)) = _
  rw [h2]
  show (match offRecordStage ps1 m1 with
    | none => none
    | some (ps2, m2) =>
      if ps2.isEmpty then some (ps2, m2)
      else
        match groupParagraphs ps2 m2 with
        | none => none
        | some pairs =>
          some (pairs.map (fun x : ParagraphInput × Option SpeakerInfo => x.1),
            toSpeakerMap pairs)) = _
  rw [h3]

theorem grouped_normCat (l : List (ParagraphInput × Option SpeakerInfo))
    (hsome : ∀ x ∈ l, ∃ s, x.2 = some s) :
    ∃ pairs, groupParagraphs (l.map (·.1)) (toSpeakerMap l) = some pairs ∧
      normCatP (pairs.map (·.1)) = normCatP (l.map (·.1)) := by
  obtain ⟨d, hd⟩ := exists_dense_speakers l hsome
  have hfst_d : l.map (·.1) = d.map (·.1) := by
    rw [hd, List.map_map]
    rfl
  have hsnd : l.map (·.2) = (d.map (·.2)).map some := by
    rw [hd, List.map_map, List.map_map]
    rfl
  have hm : mapMatches (toSpeakerMap l) 0 (d.map (·.2)) := by
    show mapMatches (denseMapFrom 0 (l.map (·.2))) 0 (d.map (·.2))
    rw [hsnd]
    exact mapMatches_dense (d.map (·.2))
  have hlen : (l.map (·.1)).length = (d.map (·.2)).length := by
    rw [hfst_d]
    simp
  have hgp := groupParagraphs_chunk (l.map (·.1)) (d.map (·.2)) (toSpeakerMap l)
    hlen hm
  refine ⟨(chunkBySpeaker ((l.map (·.1)).zip (d.map (·.2)))).map runStatement,
    hgp, ?_⟩
  have hzf : ((l.map (·.1)).zip (d.map (·.2))).map (·.1) = l.map (·.1) :=
    List.map_fst_zip (l.map (·.1)) (d.map (·.2)) (le_of_eq hlen)
  rw [chunk_normCatP, hzf]

/-- C3 (counterexample): content preservation fails.  On the one-paragraph
transcript "Hello world." flagged for resegmentation, a split whose single
returned segment is just "Hello" makes the greedy word matcher consume only
the first word and drop the rest, so the run completes with the on-record
statement text "Hello" whose normalization differs from the original
paragraph's. -/
theorem content_preservation_cex :
    identifySpeakersCore [pHW] (some [asgFlag])
        (fun _ => ResegResponse.parsed true .high [segHello]) =
      some ([pH], [(0, some nullSpk)]) ∧
    normCatP [pH] ≠ normCatP [pHW] :=
  ⟨by decide, by decide⟩

/-- C3 (amended): content preservation holds only under integrity
hypotheses the code does not enforce.  If the assignment response covers
the indices in order, each paragraph's text normalizes to its words' glued
texts, no applied resegmentation response fails, every applied split's
segment texts normalize to the whole paragraph (so the greedy matcher
consumes every word), and flagged paragraphs are on-record, then the run
completes and the normalized concatenation of the final statement texts
equals the normalized concatenation of the non-off-record original
paragraph texts in order. -/
theorem content_preservation (paragraphs : List ParagraphInput)
    (asg : List AssignedParagraph) (rsp : Nat → ResegResponse)
    (hne : paragraphs ≠ [])
    (hidx : asg.map (·.index) = List.range paragraphs.length)
    (htext : ∀ p ∈ paragraphs,
      normalizeText p.text = normalizeText (joinWordTexts p.words))
    (hok : ∀ i ∈ toResegIndices asg, rsp i ≠ .failure)
    (hint : ∀ pa ∈ paragraphs.zip asg, ∀ ss conf segs,
      rsp pa.2.index = .parsed ss conf segs → ss = true → conf ≠ .low →
      normalizeText (joinSep " " (segs.map (·.text))) = normalizeText pa.1.text)
    (hfl : ∀ a ∈ asg, a.has_multiple_speakers = true → a.is_off_record = false) :
    ∃ out, identifySpeakersCore paragraphs (some asg) rsp = some out ∧
      normCatP out.1 =
        normCatP (((paragraphs.zip asg).filter
          (fun pa => !pa.2.is_off_record)).map (·.1)) := by
  have hnd : (asg.map (·.index)).Nodup := by
    rw [hidx]
    exact List.nodup_range _
  have hie : paragraphs.isEmpty = false := by
    cases paragraphs with
    | nil => exact absurd rfl hne
    | cons p ps => rfl
  have hstage1 : speakerAssignmentStage paragraphs (some asg) =
      some (buildInitialMapping asg) := by
    simp [speakerAssignmentStage, hie]
  have hokpa : ∀ pa ∈ paragraphs.zip asg, pa.2.has_multiple_speakers = true →
      rsp pa.2.index ≠ .failure := by
    intro pa hpa hmul
    exact hok pa.2.index
      ((mem_toResegIndices asg hnd pa.2 (List.of_mem_zip hpa).2).mpr hmul)
  have hflpa : ∀ pa ∈ paragraphs.zip asg, pa.2.has_multiple_speakers = true →
      pa.2.is_off_record = false :=
    fun pa hpa => hfl pa.2 (List.of_mem_zip hpa).2
  have hstage2 := resegmentStage_pairs paragraphs asg rsp hidx hok
  have hvals1 : ∀ x ∈ (paragraphs.zip asg).flatMap (rebuildContribution rsp),
      ∃ s, x.2 = some s ∧ s.is_off_record ≠ some false := by
    intro x hx
    obtain ⟨pa, hpa, hxin⟩ := List.mem_flatMap.mp hx
    obtain ⟨s, hs, hnf, _⟩ := contribution_vals rsp pa (hflpa pa hpa) x hxin
    exact ⟨s, hs, hnf⟩
  have hstage3 := offRecordStage_defined _ hvals1
  have hkey : normCatP ((offFilterO
        ((paragraphs.zip asg).flatMap (rebuildContribution rsp))).map (·.1)) =
      normCatP (((paragraphs.zip asg).filter
        (fun pa => !pa.2.is_off_record)).map (·.1)) := by
    refine zip_normCat_assemble rsp _ ?_
    intro pa hpa
    exact contribution_filtered_nText rsp pa (htext pa.1 (List.of_mem_zip hpa).1)
      (hokpa pa hpa) (fun ss conf segs h1 h2 h3 => hint pa hpa ss conf segs h1 h2 h3)
      (hflpa pa hpa)
  have hcore := identifySpeakersCore_eq paragraphs asg rsp _ hstage1 _ _ hstage2
    _ _ hstage3
  have hsome2 : ∀ x ∈ offFilterO
      ((paragraphs.zip asg).flatMap (rebuildContribution rsp)), ∃ s, x.2 = some s := by
    intro x hx
    rw [offFilterO] at hx
    obtain ⟨y, hy, rfl⟩ := List.mem_map.mp hx
    obtain ⟨s, hs, _⟩ := hvals1 y (List.mem_of_mem_filter hy)
    exact ⟨offClear s, by rw [hs]; rfl⟩
  by_cases hemp : (((offFilterO ((paragraphs.zip asg).flatMap
      (rebuildContribution rsp))).map (·.1))).isEmpty = true
  · exact ⟨((offFilterO ((paragraphs.zip asg).flatMap
        (rebuildContribution rsp))).map (·.1),
      toSpeakerMap (offFilterO ((paragraphs.zip asg).flatMap
        (rebuildContribution rsp)))),
      by rw [hcore, if_pos hemp], hkey⟩
  · obtain ⟨pairsG, hgp, hgn⟩ := grouped_normCat
      (offFilterO ((paragraphs.zip asg).flatMap (rebuildContribution rsp))) hsome2
    refine ⟨(pairsG.map (·.1), toSpeakerMap pairsG), ?_, hgn.trans hkey⟩
    rw [hcore, if_neg hemp, hgp]

/-- Witness for C3 (amended): on a one-paragraph transcript with an
unflagged on-record attribution the run completes and the normalized
statement text equals the normalized original text. -/
theorem content_preservation_witness :
    ∃ out, identifySpeakersCore [pHW] (some [asgPlain])
        (fun _ => ResegResponse.contentFilter) = some out ∧
      normCatP out.1 =
        normCatP ((([pHW].zip [asgPlain]).filter
          (fun pa => !pa.2.is_off_record)).map (·.1)) :=
  content_preservation [pHW] [asgPlain] (fun _ => ResegResponse.contentFilter)
    (by decide) (by decide) (by decide)
    (fun i hi => absurd hi (List.not_mem_nil i))
    (fun pa hpa ss conf segs h1 => ResegResponse.noConfusion h1)
    (by decide)
